import Mathlib

/-!
Verification development for the ai-lint checker module (src/ai_lint/checker.py).

The development shallowly embeds the response-recovery pipeline of `run_check`
and `extract_insights`, the insight validator `_validate_insights`, and the
formatting helpers `_group_by_category` / `format_verdicts`.

Modelling conventions:
* Python strings are `List Char`.
* JSON values are the inductive `Json`; JSON numbers are modelled as integers
  (floating-point literals, `NaN` and `Infinity` are outside the model, as are
  escaped lone UTF-16 surrogates, which Lean `Char` cannot represent).
* `loads` models `json.loads` (strict mode, full input consumed, objects built
  with dict semantics: duplicate keys keep the first position, last value).
* `dumpsVal` models a standard compact JSON serialisation (`json.dumps` with
  default separators; non-ASCII characters are emitted literally).
* The regex search of `re.search` on the fence pattern with DOTALL is modelled
  by an explicit leftmost backtracking matcher (`fenceSearch`).
* Exceptions are explicit result constructors: `RecResult.parseError` is the
  `RuntimeError` raised on undecodable responses, `RecResult.attrError` the
  `AttributeError` raised by `.strip()` on a non-string `result` field, and
  `RunOutcome.exited` is `sys.exit`.
-/

namespace AiLint

/-! ## Character classes and basic string helpers -/

/-- JSON whitespace accepted by `json.loads` between tokens. -/
def isJsonWs (c : Char) : Bool :=
  c == ' ' || c == '\t' || c == '\n' || c == '\r'

/-- Whitespace stripped by Python `str.strip` and matched by the regex class
for backslash-s (ASCII part). -/
def isPySpace (c : Char) : Bool :=
  c == ' ' || c == '\t' || c == '\n' || c == '\r' || c == '\x0b' || c == '\x0c'

def skipWs (s : List Char) : List Char := s.dropWhile isJsonWs

/-- Python `str.strip()`. -/
def pyStrip (s : List Char) : List Char :=
  ((s.dropWhile isPySpace).reverse.dropWhile isPySpace).reverse

def isDigitC (c : Char) : Bool := 48 ≤ c.toNat && c.toNat ≤ 57

/-- Boolean test that `p` occurs at the start of `s`. -/
def startsWithL : List Char → List Char → Bool
  | _, [] => true
  | [], _ :: _ => false
  | c :: t, p :: ps => c == p && startsWithL t ps

/-- Boolean test that `p` occurs contiguously somewhere inside `s`. -/
def containsSeg : List Char → List Char → Bool
  | [], p => startsWithL [] p
  | c :: t, p => startsWithL (c :: t) p || containsSeg t p

/-- `p` occurs contiguously inside `s`. -/
def SegIn (p s : List Char) : Prop := ∃ a b, s = a ++ p ++ b

/-- Python `"\n".join(lines)`. -/
def joinNL : List (List Char) → List Char
  | [] => []
  | [l] => l
  | l :: l2 :: t => l ++ '\n' :: joinNL (l2 :: t)

/-! ## JSON data model -/

/-- JSON values as produced by `json.loads` (numbers restricted to integers). -/
inductive Json where
  | null : Json
  | bool (b : Bool) : Json
  | num (n : Int) : Json
  | str (s : List Char) : Json
  | arr (xs : List Json) : Json
  | obj (fields : List (List Char × Json)) : Json

/-- Python dict item assignment: replace the value at an existing key in
place, otherwise append the binding at the end. -/
def insertField : List (List Char × Json) → List Char → Json → List (List Char × Json)
  | [], k, v => [(k, v)]
  | (k0, v0) :: t, k, v =>
    if k0 = k then (k0, v) :: t else (k0, v0) :: insertField t k v

/-- Build a Python dict from a parsed member list (later duplicate keys
overwrite earlier values). -/
def dictify (ms : List (List Char × Json)) : List (List Char × Json) :=
  ms.foldl (fun acc p => insertField acc p.1 p.2) []

/-- Python dict key lookup. -/
def objGet : List (List Char × Json) → List Char → Option Json
  | [], _ => none
  | (k0, v0) :: t, k => if k0 = k then some v0 else objGet t k

/-- No two bindings share a key. -/
def keysUniq : List (List Char × Json) → Bool
  | [] => true
  | (k, _) :: t => t.all (fun p => !(p.1 == k)) && keysUniq t

mutual

/-- A `Json` value is representable as a Python object tree: every object has
pairwise distinct keys. -/
def wfJ : Json → Bool
  | .null => true
  | .bool _ => true
  | .num _ => true
  | .str _ => true
  | .arr xs => wfL xs
  | .obj fs => keysUniq fs && wfF fs

/-- All list elements are representable. -/
def wfL : List Json → Bool
  | [] => true
  | x :: t => wfJ x && wfL t

/-- All field values are representable. -/
def wfF : List (List Char × Json) → Bool
  | [] => true
  | (_, v) :: t => wfJ v && wfF t

end

mutual

/-- Structural equality test on JSON values. -/
def jeq : Json → Json → Bool
  | .null, .null => true
  | .bool a, .bool b => a == b
  | .num a, .num b => a == b
  | .str a, .str b => a == b
  | .arr a, .arr b => jeqL a b
  | .obj a, .obj b => jeqF a b
  | _, _ => false

def jeqL : List Json → List Json → Bool
  | [], [] => true
  | a :: ta, b :: tb => jeq a b && jeqL ta tb
  | _, _ => false

def jeqF : List (List Char × Json) → List (List Char × Json) → Bool
  | [], [] => true
  | (k1, v1) :: ta, (k2, v2) :: tb => k1 == k2 && jeq v1 v2 && jeqF ta tb
  | _, _ => false

end

def isObjJ : Json → Bool
  | .obj _ => true
  | _ => false

def isStrJ : Json → Bool
  | .str _ => true
  | _ => false

/-! ## JSON serialisation (`json.dumps`, default separators) -/

def digitChar : Nat → Char
  | 0 => '0' | 1 => '1' | 2 => '2' | 3 => '3' | 4 => '4'
  | 5 => '5' | 6 => '6' | 7 => '7' | 8 => '8' | _ => '9'

def natReprAux : Nat → Nat → List Char
  | 0, _ => []
  | fuel + 1, n =>
    if n < 10 then [digitChar n]
    else natReprAux fuel (n / 10) ++ [digitChar (n % 10)]

def natReprL (n : Nat) : List Char := natReprAux (n + 1) n

def intReprL : Int → List Char
  | .ofNat n => natReprL n
  | .negSucc m => '-' :: natReprL (m + 1)

def hexDigit : Nat → Char
  | 0 => '0' | 1 => '1' | 2 => '2' | 3 => '3' | 4 => '4'
  | 5 => '5' | 6 => '6' | 7 => '7' | 8 => '8' | 9 => '9'
  | 10 => 'a' | 11 => 'b' | 12 => 'c' | 13 => 'd' | 14 => 'e' | _ => 'f'

/-- JSON string escaping of one character (mandatory escapes only; non-ASCII
characters are emitted literally). -/
def escapeChar (c : Char) : List Char :=
  if c = '"' then ['\\', '"']
  else if c = '\\' then ['\\', '\\']
  else if c = '\n' then ['\\', 'n']
  else if c = '\t' then ['\\', 't']
  else if c = '\r' then ['\\', 'r']
  else if c = '\x08' then ['\\', 'b']
  else if c = '\x0c' then ['\\', 'f']
  else if c.toNat < 0x20 then
    ['\\', 'u', '0', '0', hexDigit (c.toNat / 16), hexDigit (c.toNat % 16)]
  else [c]

def escBody : List Char → List Char
  | [] => []
  | c :: t => escapeChar c ++ escBody t

/-- Serialise a JSON string, quotes included. -/
def dumpsStr (s : List Char) : List Char := '"' :: escBody s ++ ['"']

mutual

/-- Compact JSON serialisation of a value. -/
def dumpsVal : Json → List Char
  | .null => 'n' :: ['u', 'l', 'l']
  | .bool true => 't' :: ['r', 'u', 'e']
  | .bool false => 'f' :: ['a', 'l', 's', 'e']
  | .num n => intReprL n
  | .str s => dumpsStr s
  | .arr xs => '[' :: dumpsElems xs ++ [']']
  | .obj fs => '\x7b' :: dumpsFields fs ++ ['\x7d']

/-- Array elements joined by a comma and a space. -/
def dumpsElems : List Json → List Char
  | [] => []
  | [x] => dumpsVal x
  | x :: y :: t => dumpsVal x ++ ',' :: ' ' :: dumpsElems (y :: t)

/-- Object members joined by a comma and a space, key and value separated by
a colon and a space. -/
def dumpsFields : List (List Char × Json) → List Char
  | [] => []
  | [(k, v)] => dumpsStr k ++ ':' :: ' ' :: dumpsVal v
  | (k, v) :: e :: t => dumpsStr k ++ ':' :: ' ' :: dumpsVal v ++ ',' :: ' ' :: dumpsFields (e :: t)

end

/-! ## JSON parsing (`json.loads`) -/

def hexVal (c : Char) : Option Nat :=
  if '0' ≤ c && c ≤ '9' then some (c.toNat - 48)
  else if 'a' ≤ c && c ≤ 'f' then some (c.toNat - 87)
  else if 'A' ≤ c && c ≤ 'F' then some (c.toNat - 55)
  else none

/-- The value of four hex digits, if all four are hex digits. -/
def hexQuad (h1 h2 h3 h4 : Char) : Option Nat :=
  (hexVal h1).bind fun a =>
    (hexVal h2).bind fun b =>
      (hexVal h3).bind fun c =>
        (hexVal h4).map fun d => ((a * 16 + b) * 16 + c) * 16 + d

mutual

/-- Parse the body of a JSON string after the opening quote, returning the
decoded characters and the input after the closing quote.  Literal control
characters are rejected (strict mode); escaped UTF-16 surrogate pairs are
combined; escaped lone surrogates are not representable and fail.  The fuel
bounds recursion, and at every call site it exceeds the input length, so it
never runs out before the input does. -/
def parseStrBody : Nat → List Char → Option (List Char × List Char)
  | 0, _ => none
  | fuel + 1, s =>
    match s with
    | [] => none
    | c :: r =>
      if c = '"' then some ([], r)
      else if c = '\\' then parseEsc fuel r
      else if c.toNat < 0x20 then none
      else (parseStrBody fuel r).map (fun p => (c :: p.1, p.2))

/-- Decode the character after a backslash. -/
def parseEsc : Nat → List Char → Option (List Char × List Char)
  | 0, _ => none
  | fuel + 1, r =>
    match r with
    | [] => none
    | e :: r2 =>
      if e = '"' then (parseStrBody fuel r2).map (fun p => ('"' :: p.1, p.2))
      else if e = '\\' then (parseStrBody fuel r2).map (fun p => ('\\' :: p.1, p.2))
      else if e = '/' then (parseStrBody fuel r2).map (fun p => ('/' :: p.1, p.2))
      else if e = 'b' then (parseStrBody fuel r2).map (fun p => ('\x08' :: p.1, p.2))
      else if e = 'f' then (parseStrBody fuel r2).map (fun p => ('\x0c' :: p.1, p.2))
      else if e = 'n' then (parseStrBody fuel r2).map (fun p => ('\n' :: p.1, p.2))
      else if e = 'r' then (parseStrBody fuel r2).map (fun p => ('\r' :: p.1, p.2))
      else if e = 't' then (parseStrBody fuel r2).map (fun p => ('\t' :: p.1, p.2))
      else if e = 'u' then parseU fuel r2
      else none

/-- Decode a backslash-u escape: four hex digits, then possibly a low
surrogate completing a pair. -/
def parseU : Nat → List Char → Option (List Char × List Char)
  | 0, _ => none
  | fuel + 1, s =>
    match s with
    | h1 :: h2 :: h3 :: h4 :: r3 =>
      match hexQuad h1 h2 h3 h4 with
      | none => none
      | some n =>
        if 0xD800 ≤ n ∧ n ≤ 0xDBFF then parseUPair fuel n r3
        else if 0xDC00 ≤ n ∧ n ≤ 0xDFFF then none
        else (parseStrBody fuel r3).map (fun p => (Char.ofNat n :: p.1, p.2))
    | _ => none

/-- Decode the low-surrogate escape completing a pair whose high half had
value `n`. -/
def parseUPair : Nat → Nat → List Char → Option (List Char × List Char)
  | 0, _, _ => none
  | fuel + 1, n, s =>
    match s with
    | '\\' :: 'u' :: g1 :: g2 :: g3 :: g4 :: r4 =>
      match hexQuad g1 g2 g3 g4 with
      | none => none
      | some m =>
        if 0xDC00 ≤ m ∧ m ≤ 0xDFFF then
          (parseStrBody fuel r4).map
            (fun p => (Char.ofNat (0x10000 + (n - 0xD800) * 0x400 + (m - 0xDC00)) :: p.1, p.2))
        else none
    | _ => none

end

/-- The next character would extend or invalidate an integer literal: another
digit, or the start of a fraction or exponent (floats are outside the model). -/
def badNumTail (l : List Char) : Bool :=
  match l with
  | [] => false
  | c :: _ => isDigitC c || c == '.' || c == 'e' || c == 'E'

def digitVal (c : Char) : Nat := c.toNat - 48

def digitsToNat (ds : List Char) : Nat :=
  ds.foldl (fun a c => a * 10 + digitVal c) 0

/-- Parse an unsigned JSON integer (no leading zeros). -/
def parseUInt : List Char → Option (Nat × List Char)
  | [] => none
  | c :: r =>
    if c = '0' then
      if badNumTail r then none else some (0, r)
    else if isDigitC c then
      let ds := (c :: r).takeWhile isDigitC
      let rest := (c :: r).dropWhile isDigitC
      if badNumTail rest then none else some (digitsToNat ds, rest)
    else none

/-- Parse a JSON integer literal. -/
def parseNum : List Char → Option (Json × List Char)
  | [] => none
  | c :: r =>
    if c = '-' then (parseUInt r).map (fun p => (Json.num (-(p.1 : Int)), p.2))
    else (parseUInt (c :: r)).map (fun p => (Json.num (p.1 : Int), p.2))

mutual

/-- Parse one JSON value (with fuel bounding recursion depth). -/
def parseVal : Nat → List Char → Option (Json × List Char)
  | 0, _ => none
  | fuel + 1, s0 =>
    match skipWs s0 with
    | [] => none
    | c :: r =>
      if c = '"' then (parseStrBody (r.length + 1) r).map (fun p => (Json.str p.1, p.2))
      else if c = '[' then
        if (skipWs r).head? = some ']' then some (Json.arr [], (skipWs r).tail)
        else (parseElems fuel (skipWs r)).map (fun p => (Json.arr p.1, p.2))
      else if c = '\x7b' then
        if (skipWs r).head? = some '\x7d' then some (Json.obj [], (skipWs r).tail)
        else (parseFields fuel (skipWs r)).map (fun p => (Json.obj (dictify p.1), p.2))
      else if c = 'n' then
        if startsWithL r ['u', 'l', 'l'] then some (Json.null, r.drop 3) else none
      else if c = 't' then
        if startsWithL r ['r', 'u', 'e'] then some (Json.bool true, r.drop 3) else none
      else if c = 'f' then
        if startsWithL r ['a', 'l', 's', 'e'] then some (Json.bool false, r.drop 4) else none
      else parseNum (c :: r)

/-- Parse the elements of a non-empty array up to and including the closing
bracket. -/
def parseElems : Nat → List Char → Option (List Json × List Char)
  | 0, _ => none
  | fuel + 1, s =>
    match parseVal fuel s with
    | none => none
    | some (v, r) =>
      if (skipWs r).head? = some ',' then
        (parseElems fuel (skipWs r).tail).map (fun p => (v :: p.1, p.2))
      else if (skipWs r).head? = some ']' then some ([v], (skipWs r).tail)
      else none

/-- Parse the members of a non-empty object up to and including the closing
brace (the input must already start at the first key quote). -/
def parseFields : Nat → List Char → Option (List (List Char × Json) × List Char)
  | 0, _ => none
  | fuel + 1, s =>
    match s with
    | [] => none
    | c :: r =>
      if c = '"' then
        match parseStrBody (r.length + 1) r with
        | none => none
        | some (k, r1) =>
          if (skipWs r1).head? = some ':' then
            match parseVal fuel (skipWs r1).tail with
            | none => none
            | some (v, r3) =>
              if (skipWs r3).head? = some ',' then
                (parseFields fuel (skipWs (skipWs r3).tail)).map
                  (fun p => ((k, v) :: p.1, p.2))
              else if (skipWs r3).head? = some '\x7d' then some ([(k, v)], (skipWs r3).tail)
              else none
          else none
      else none

end

/-- `json.loads`: parse one value and require only whitespace to remain.
The fuel is a termination artifact of the embedding (CPython recursion has no
fuel); any sufficient bound is faithful, and twice the length plus two covers
every input. -/
def loads (s : List Char) : Option Json :=
  match parseVal (2 * s.length + 2) s with
  | some (v, rest) => if skipWs rest = [] then some v else none
  | none => none

mutual

/-- Fuel sufficient for `parseVal` on the serialisation of a value. -/
def mvJ : Json → Nat
  | .null => 1
  | .bool _ => 1
  | .num _ => 1
  | .str _ => 1
  | .arr xs => 1 + mvL xs
  | .obj fs => 1 + mvF fs

/-- Fuel sufficient for `parseElems` on serialised elements. -/
def mvL : List Json → Nat
  | [] => 1
  | x :: t => 1 + mvJ x + mvL t

/-- Fuel sufficient for `parseFields` on serialised members. -/
def mvF : List (List Char × Json) → Nat
  | [] => 1
  | (_, v) :: t => 1 + mvJ v + mvF t

end

/-! ## Fence extraction: the regex of checker.py line 97/188

`re.search` of triple-backtick, optional literal `json` tag, backslash-s star,
newline, lazy dot-star group, newline, backslash-s star, triple-backtick, with
DOTALL and no IGNORECASE, modelled as a leftmost backtracking matcher. -/

def btk : Char := '\x60'

/-- The triple-backtick marker. -/
def ccc : List Char := [btk, btk, btk]

def wsRun : List Char → Nat
  | [] => 0
  | c :: t => if isPySpace c then wsRun t + 1 else 0

/-- After the group and its mandatory newline: backslash-s star followed by
the closing triple backtick (the trailing end is unanchored). -/
def closesFence (t : List Char) : Bool :=
  (List.range (wsRun t + 1)).any (fun k => startsWithL (t.drop k) ccc)

/-- The lazy group: the shortest prefix followed by a newline and a closing
fence wins. -/
def matchLazy : List Char → Option (List Char)
  | [] => none
  | c :: t =>
    if c == '\n' && closesFence t then some []
    else (matchLazy t).map (c :: ·)

/-- Backtracking over how many whitespace characters the greedy backslash-s
star consumes before the mandatory newline (longest first). -/
def tryNewlineAt (s : List Char) : List Nat → Option (List Char)
  | [] => none
  | j :: js =>
    if (s.drop j).head? = some '\n' then
      match matchLazy (s.drop j).tail with
      | some g => some g
      | none => tryNewlineAt s js
    else tryNewlineAt s js

def matchAfterTag (s : List Char) : Option (List Char) :=
  tryNewlineAt s (List.range (wsRun s + 1)).reverse

/-- Try to match the fence pattern at this position (greedy optional tag:
the literal tag branch is preferred, the empty branch is the fallback). -/
def matchAt (s : List Char) : Option (List Char) :=
  if startsWithL s ccc then
    let r := s.drop 3
    match (if startsWithL r ['j', 's', 'o', 'n'] then matchAfterTag (r.drop 4) else none) with
    | some g => some g
    | none => matchAfterTag r
  else none

/-- Leftmost search: the first position with a match wins, and its group is
returned. -/
def fenceSearch : List Char → Option (List Char)
  | [] => none
  | c :: t =>
    match matchAt (c :: t) with
    | some g => some g
    | none => fenceSearch t

/-! ## The brace-scan rescue described by the spec (not present in the code) -/

/-- Modelled from the spec: the brace-scan rescue of section 4.1 step 4,
which is absent from src/ai_lint/checker.py.  It selects the greedy outermost
span from the first opening brace to the last closing brace of the working
text (the regex open-brace dot-star close-brace with DOTALL). -/
def braceSpanSpec (s : List Char) : Option (List Char) :=
  match s.dropWhile (fun c => !(c == '\x7b')) with
  | [] => none
  | c :: t =>
    match ((c :: t).reverse.dropWhile (fun c2 => !(c2 == '\x7d'))) with
    | [] => none
    | rs => some rs.reverse

/-! ## The response recovery pipelines (checker.py lines 85-108 and 180-197) -/

/-- Outcome of the recovery code on a captured stdout string. -/
inductive RecResult where
  | ok (v : Json) : RecResult
  | parseError (msg : List Char) : RecResult
  | attrError : RecResult

/-- The key of the output envelope. -/
def rsKey : List Char := "result".data

def errRC : List Char := "Failed to parse LLM response as JSON.\nRaw output:\n".data

def errIns : List Char := "Failed to parse insights response as JSON.\nRaw output:\n".data

/-- Lines 87-108 of checker.py (`run_check`): strip stdout, attempt the
envelope unwrap (only JSONDecodeError is caught, so a non-string `result`
field raises AttributeError from `.strip()`), extract a fenced block if one
matches, then decode or raise RuntimeError with the working text. -/
def recoverRunCheck (stdout : List Char) : RecResult :=
  let raw0 := pyStrip stdout
  let unwrapped : Option (List Char) :=
    match loads raw0 with
    | some (Json.obj fs) =>
      match objGet fs rsKey with
      | some (Json.str s) => some (pyStrip s)
      | some _ => none
      | none => some raw0
    | some _ => some raw0
    | none => some raw0
  match unwrapped with
  | none => RecResult.attrError
  | some raw1 =>
    let raw2 :=
      match fenceSearch raw1 with
      | some g => g
      | none => raw1
    match loads raw2 with
    | some v => RecResult.ok v
    | none => RecResult.parseError (errRC ++ raw2)

/-- Lines 180-197 of checker.py (`extract_insights`): the same recovery
statements, duplicated in the source, with a different error message. -/
def recoverInsights (stdout : List Char) : RecResult :=
  let raw0 := pyStrip stdout
  let unwrapped : Option (List Char) :=
    match loads raw0 with
    | some (Json.obj fs) =>
      match objGet fs rsKey with
      | some (Json.str s) => some (pyStrip s)
      | some _ => none
      | none => some raw0
    | some _ => some raw0
    | none => some raw0
  match unwrapped with
  | none => RecResult.attrError
  | some raw1 =>
    let raw2 :=
      match fenceSearch raw1 with
      | some g => g
      | none => raw1
    match loads raw2 with
    | some v => RecResult.ok v
    | none => RecResult.parseError (errIns ++ raw2)

/-- The recovered structured value, if recovery succeeded. -/
def recValue : RecResult → Option Json
  | .ok v => some v
  | _ => none

/-! ## Staged view of the pipeline, for stating properties -/

/-- The envelope-unwrap statements applied to the stripped stdout: `none`
models the uncaught AttributeError on a non-string `result` field. -/
def unwrapStage (raw0 : List Char) : Option (List Char) :=
  match loads raw0 with
  | some (Json.obj fs) =>
    match objGet fs rsKey with
    | some (Json.str s) => some (pyStrip s)
    | some _ => none
    | none => some raw0
  | some _ => some raw0
  | none => some raw0

/-- The fence-extraction statements: replace the working text by the matched
group if the regex matches, otherwise keep it. -/
def fenceStage (raw1 : List Char) : List Char :=
  match fenceSearch raw1 with
  | some g => g
  | none => raw1

/-! ## Insight validation (checker.py lines 202-225) -/

def wKey : List Char := "what_went_well".data

def iKey : List Char := "what_to_improve".data

def nKey : List Char := "notable".data

def pKey : List Char := "pattern".data

def eKey : List Char := "evidence".data

def oKey : List Char := "observation".data

def hasKeyJ (fs : List (List Char × Json)) (k : List Char) : Bool :=
  match objGet fs k with
  | some _ => true
  | none => false

/-- Python iteration over a value: lists yield their items, strings yield
their characters as one-character strings, dicts yield their keys; numbers,
booleans and None are not iterable (TypeError, modelled as `none`). -/
def iterItems : Json → Option (List Json)
  | .arr xs => some xs
  | .str cs => some (cs.map (fun c => Json.str [c]))
  | .obj fs => some (fs.map (fun p => Json.str p.1))
  | _ => none

/-- The filter of lines 214/218/222: keep an item only if it is a dict with
both required keys. -/
def keepItem (need1 need2 : List Char) : Json → Bool
  | .obj fs => hasKeyJ fs need1 && hasKeyJ fs need2
  | _ => false

/-- Lines 202-225: validate and normalise the insights structure.  `none`
models the TypeError raised when a present field is not iterable; the
for-loops iterate `raw.get(key, [])` directly. -/
def _validate_insights (raw : Json) : Option Json :=
  match raw with
  | .obj fs =>
    match iterItems ((objGet fs wKey).getD (Json.arr [])) with
    | none => none
    | some l1 =>
      match iterItems ((objGet fs iKey).getD (Json.arr [])) with
      | none => none
      | some l2 =>
        match iterItems ((objGet fs nKey).getD (Json.arr [])) with
        | none => none
        | some l3 =>
          some (Json.obj [(wKey, Json.arr (l1.filter (keepItem pKey eKey))),
                          (iKey, Json.arr (l2.filter (keepItem pKey eKey))),
                          (nKey, Json.arr (l3.filter (keepItem oKey eKey)))])
  | _ => some (Json.obj [(wKey, Json.arr []), (iKey, Json.arr []), (nKey, Json.arr [])])

/-- The all-empty report returned in the worst case. -/
def emptyReport : Json :=
  Json.obj [(wKey, Json.arr []), (iKey, Json.arr []), (nKey, Json.arr [])]

/-! ## Verdict formatting (checker.py lines 259-292) -/

/-- A verdict record as consumed by the formatters: `category` is read with
`v.get("category", "General")`, the other fields by direct indexing. -/
structure Verdict where
  category : Option (List Char)
  rule : List Char
  verdict : List Char
  reasoning : List Char

def catOf (v : Verdict) : List Char := v.category.getD "General".data

/-- Lines 259-265: group verdicts by category via dict `setdefault`, which
keeps the first-seen key order and appends within a group. -/
def _group_by_category (vs : List Verdict) : List (List Char × List Verdict) :=
  vs.foldl (fun gs v =>
    let c := catOf v
    if gs.any (fun g => g.1 == c) then
      gs.map (fun g => if g.1 = c then (g.1, g.2 ++ [v]) else g)
    else gs ++ [(c, [v])]) []

/-- Declarative description of stable grouping: categories in order of first
appearance, each paired with the subsequence of verdicts carrying it. -/
def dedupFS (l : List (List Char)) : List (List Char) :=
  l.foldl (fun acc c => if c ∈ acc then acc else acc ++ [c]) []

/-- The grouping the spec describes: first-seen category order, original
verdict order within each category. -/
def groupSpec (vs : List Verdict) : List (List Char × List Verdict) :=
  (dedupFS (vs.map catOf)).map (fun c => (c, vs.filter (fun v => catOf v == c)))

/-- Line 280: icon selection with an unknown-verdict fallback. -/
def iconFor (w : List Char) : Char :=
  if w = "PASS".data then '+'
  else if w = "FAIL".data then 'x'
  else if w = "SKIP".data then '-'
  else '?'

/-- The dict passed to format_verdicts: `verdicts` and `summary` are read
with `.get` and these defaults. -/
structure CheckResultM where
  verdicts : List Verdict
  summary : List Char

/-- The two lines printed for one verdict (lines 281-282). -/
def verdictLines (v : Verdict) : List (List Char) :=
  ["  [".data ++ [iconFor v.verdict] ++ "] ".data ++ v.verdict ++ ": ".data ++ v.rule,
   "      ".data ++ v.reasoning]

/-- The lines printed for one category group (lines 277-283). -/
def groupLines (g : List Char × List Verdict) : List (List Char) :=
  ("  ".data ++ g.1) :: (g.2.map verdictLines).flatten ++ [[]]

/-- Lines 268-292: render the verdicts dict as terminal text. -/
def format_verdicts (result : CheckResultM) : List Char :=
  let verdicts := result.verdicts
  let pass_count := (verdicts.filter (fun v => v.verdict == "PASS".data)).length
  let fail_count := (verdicts.filter (fun v => v.verdict == "FAIL".data)).length
  let skip_count := (verdicts.filter (fun v => v.verdict == "SKIP".data)).length
  let lines := ((_group_by_category verdicts).map groupLines).flatten
    ++ ["Results: ".data ++ natReprL pass_count ++ " passed, ".data ++ natReprL fail_count
        ++ " failed, ".data ++ natReprL skip_count ++ " skipped".data]
    ++ [[]]
  let lines2 := if result.summary = [] then lines else lines ++ ["Summary: ".data ++ result.summary]
  joinNL lines2

/-! ## The top of run_check and extract_insights (availability, subprocess) -/

structure ProcResult where
  returncode : Int
  stdout : List Char
  stderr : List Char

/-- The observable outcome of the subprocess call. -/
inductive ProcOutcome where
  | timeout : ProcOutcome
  | completed (r : ProcResult) : ProcOutcome

/-- The outcome of run_check / extract_insights: `exited` is `sys.exit`,
`error` a RuntimeError with its message, `attrError` and `typeError` the
uncaught exceptions of the recovery and validation steps. -/
inductive RunOutcome where
  | exited (code : Nat) : RunOutcome
  | error (msg : List Char) : RunOutcome
  | attrError : RunOutcome
  | typeError : RunOutcome
  | ok (v : Json) : RunOutcome

def errTimeout : List Char := "claude -p timed out after 120 seconds".data

def errFailedHead : List Char := "claude -p failed:\n".data

/-- Lines 47-108: `run_check`, parameterised over whether the claude
executable is locatable and over the subprocess outcome.  The boolean of the
pair records whether the subprocess was invoked at all. -/
def run_check (claudeInstalled : Bool) (proc : ProcOutcome) : RunOutcome × Bool :=
  if claudeInstalled then
    match proc with
    | .timeout => (.error errTimeout, true)
    | .completed r =>
      if r.returncode ≠ 0 then (.error (errFailedHead ++ r.stderr), true)
      else
        match recoverRunCheck r.stdout with
        | .ok v => (.ok v, true)
        | .parseError m => (.error m, true)
        | .attrError => (.attrError, true)
  else (.exited 1, false)

/-- Lines 142-199: `extract_insights`, with its recovery followed by the
validation step. -/
def extract_insights (claudeInstalled : Bool) (proc : ProcOutcome) : RunOutcome × Bool :=
  if claudeInstalled then
    match proc with
    | .timeout => (.error errTimeout, true)
    | .completed r =>
      if r.returncode ≠ 0 then (.error (errFailedHead ++ r.stderr), true)
      else
        match recoverInsights r.stdout with
        | .ok v =>
          match _validate_insights v with
          | some rep => (.ok rep, true)
          | none => (.typeError, true)
        | .parseError m => (.error m, true)
        | .attrError => (.attrError, true)
  else (.exited 1, false)

/-! ## Induction principle for the nested Json type -/

theorem sizeOf_lt_of_mem {xs : List Json} {x : Json} (h : x ∈ xs) : sizeOf x < sizeOf xs := by
  induction xs with
  | nil => cases h
  | cons y t ih =>
    rcases List.mem_cons.mp h with h | h
    · subst h; simp; omega
    · have := ih h; simp; omega

theorem sizeOf_lt_of_mem_pair {fs : List (List Char × Json)} {p : List Char × Json}
    (h : p ∈ fs) : sizeOf p.2 < sizeOf fs := by
  induction fs with
  | nil => cases h
  | cons q t ih =>
    rcases List.mem_cons.mp h with h | h
    · subst h; cases p with | mk a b => simp; omega
    · have := ih h; simp; omega

theorem jsonInd {P : Json → Prop}
    (h1 : P .null) (h2 : ∀ b, P (.bool b)) (h3 : ∀ n, P (.num n)) (h4 : ∀ s, P (.str s))
    (h5 : ∀ xs, (∀ x ∈ xs, P x) → P (.arr xs))
    (h6 : ∀ fs, (∀ p ∈ fs, P (Prod.snd p)) → P (.obj fs)) : ∀ j, P j := by
  have H : ∀ n (j : Json), sizeOf j ≤ n → P j := by
    intro n
    induction n with
    | zero =>
      intro j hj
      exfalso
      cases j <;> simp at hj
    | succ n ih =>
      intro j hj
      cases j with
      | null => exact h1
      | bool b => exact h2 b
      | num m => exact h3 m
      | str s => exact h4 s
      | arr xs =>
        refine h5 xs (fun x hx => ih x ?_)
        have := sizeOf_lt_of_mem hx
        simp at hj
        omega
      | obj fs =>
        refine h6 fs (fun p hp => ih p.2 ?_)
        have := sizeOf_lt_of_mem_pair hp
        simp at hj
        omega
  exact fun j => H (sizeOf j) j le_rfl

/-! ## Decidable equality on Json -/

theorem jeqL_iff {xs : List Json} (hx : ∀ x ∈ xs, ∀ b, jeq x b = true ↔ x = b) :
    ∀ ys, jeqL xs ys = true ↔ xs = ys := by
  induction xs with
  | nil => intro ys; cases ys <;> simp [jeqL]
  | cons a ta ih =>
    intro ys
    cases ys with
    | nil => simp [jeqL]
    | cons b tb =>
      have ha := hx a (List.mem_cons_self a ta) b
      have ht := ih (fun x hxm => hx x (List.mem_cons_of_mem a hxm)) tb
      simp [jeqL, ha, ht]

theorem jeqF_iff {fs : List (List Char × Json)}
    (hf : ∀ p ∈ fs, ∀ b, jeq (Prod.snd p) b = true ↔ Prod.snd p = b) :
    ∀ gs, jeqF fs gs = true ↔ fs = gs := by
  induction fs with
  | nil => intro gs; cases gs <;> simp [jeqF]
  | cons a ta ih =>
    intro gs
    cases gs with
    | nil => cases a; simp [jeqF]
    | cons b tb =>
      cases a with
      | mk k1 v1 =>
        cases b with
        | mk k2 v2 =>
          have ha := hf (k1, v1) (List.mem_cons_self _ ta) v2
          have ht := ih (fun p hp => hf p (List.mem_cons_of_mem _ hp)) tb
          simp [jeqF, ha, ht, and_assoc]

theorem jeq_iff : ∀ a b : Json, jeq a b = true ↔ a = b := by
  intro a
  induction a using jsonInd with
  | h1 => intro b; cases b <;> simp [jeq]
  | h2 x => intro b; cases b <;> simp [jeq]
  | h3 x => intro b; cases b <;> simp [jeq]
  | h4 x => intro b; cases b <;> simp [jeq]
  | h5 xs hx =>
    intro b
    cases b <;> simp [jeq]
    exact jeqL_iff hx _
  | h6 fs hf =>
    intro b
    cases b <;> simp [jeq]
    exact jeqF_iff hf _

instance : DecidableEq Json := fun a b => decidable_of_iff (jeq a b = true) (jeq_iff a b)

deriving instance DecidableEq for RecResult

deriving instance DecidableEq for RunOutcome

/-! ## Segment (substring) lemmas -/

theorem segIn_self (p : List Char) : SegIn p p := ⟨[], [], by simp⟩

theorem segIn_trans {p l s : List Char} (h1 : SegIn p l) (h2 : SegIn l s) : SegIn p s := by
  obtain ⟨a, b, rfl⟩ := h1
  obtain ⟨c, d, rfl⟩ := h2
  exact ⟨c ++ a, b ++ d, by simp⟩

theorem segIn_append_left (p s : List Char) : SegIn s (p ++ s) := ⟨p, [], by simp⟩

theorem segIn_joinNL {l : List Char} {ls : List (List Char)} (h : l ∈ ls) :
    SegIn l (joinNL ls) := by
  induction ls with
  | nil => cases h
  | cons a t ih =>
    cases t with
    | nil =>
      rcases List.mem_cons.mp h with h | h
      · subst h; exact segIn_self l
      · cases h
    | cons b t2 =>
      rcases List.mem_cons.mp h with h | h
      · subst h
        exact ⟨[], '\n' :: joinNL (b :: t2), by simp [joinNL]⟩
      · obtain ⟨x, y, hx⟩ := ih h
        exact ⟨a ++ '\n' :: x, y, by simp [joinNL, hx]⟩

theorem startsWithL_iff {s p : List Char} : startsWithL s p = true ↔ ∃ b, s = p ++ b := by
  constructor
  · intro h
    induction p generalizing s with
    | nil => exact ⟨s, rfl⟩
    | cons c t ih =>
      cases s with
      | nil => simp [startsWithL] at h
      | cons c2 t2 =>
        simp only [startsWithL, Bool.and_eq_true, beq_iff_eq] at h
        obtain ⟨rfl, h2⟩ := h
        obtain ⟨b, rfl⟩ := ih h2
        exact ⟨b, rfl⟩
  · rintro ⟨b, rfl⟩
    induction p with
    | nil => simp [startsWithL]
    | cons c t ih => simpa [startsWithL] using ih

theorem containsSeg_sound {s p : List Char} (h : containsSeg s p = true) : SegIn p s := by
  induction s with
  | nil =>
    simp only [containsSeg] at h
    obtain ⟨b, hb⟩ := startsWithL_iff.mp h
    exact ⟨[], b, by simpa using hb⟩
  | cons c t ih =>
    simp only [containsSeg, Bool.or_eq_true] at h
    rcases h with h | h
    · obtain ⟨b, hb⟩ := startsWithL_iff.mp h
      exact ⟨[], b, by simpa using hb⟩
    · obtain ⟨a, b, hb⟩ := ih h
      exact ⟨c :: a, b, by simp [hb]⟩

/-! ## Stripping lemmas -/

theorem dropWhile_eq_self_of_head {p : Char → Bool} {l : List Char}
    (h : ∀ c, l.head? = some c → p c = false) : l.dropWhile p = l := by
  cases l with
  | nil => rfl
  | cons c t => simp [List.dropWhile, h c rfl]

/-- A string whose first and last characters are not whitespace is unchanged
by strip. -/
theorem pyStrip_eq_self {s : List Char}
    (h1 : ∀ c, s.head? = some c → isPySpace c = false)
    (h2 : ∀ c, s.getLast? = some c → isPySpace c = false) : pyStrip s = s := by
  unfold pyStrip
  rw [dropWhile_eq_self_of_head h1]
  rw [dropWhile_eq_self_of_head (by simpa using h2)]
  simp

theorem skipWs_eq_self_of_head {s : List Char}
    (h : ∀ c, s.head? = some c → isJsonWs c = false) : skipWs s = s :=
  dropWhile_eq_self_of_head h

/-! ## Decimal digit lemmas -/

theorem digitChar_isDigit (k : Nat) : isDigitC (digitChar k) = true := by
  rcases k with _|_|_|_|_|_|_|_|_|k <;> rfl

theorem digitChar_val {k : Nat} (h : k < 10) : digitVal (digitChar k) = k := by
  interval_cases k <;> rfl

theorem digitChar_ne_zero {k : Nat} (h1 : 1 ≤ k) (h2 : k ≤ 9) : digitChar k ≠ '0' := by
  interval_cases k <;> decide

theorem notWs_of_digit {c : Char} (h : isDigitC c = true) :
    isJsonWs c = false ∧ isPySpace c = false := by
  constructor
  · simp only [isJsonWs, Bool.or_eq_false_iff, beq_eq_false_iff_ne, ne_eq]
    and_intros <;> rintro rfl <;> exact absurd h (by decide)
  · simp only [isPySpace, Bool.or_eq_false_iff, beq_eq_false_iff_ne, ne_eq]
    and_intros <;> rintro rfl <;> exact absurd h (by decide)

/-! ## Specification of the decimal representation -/

theorem natReprAux_spec : ∀ fuel n, n < fuel →
    natReprAux fuel n ≠ [] ∧ (∀ c ∈ natReprAux fuel n, isDigitC c = true) ∧
    (∀ a, (natReprAux fuel n).foldl (fun a c => a * 10 + digitVal c) a
        = a * 10 ^ (natReprAux fuel n).length + n) := by
  intro fuel
  induction fuel with
  | zero => intro n hn; omega
  | succ fuel ih =>
    intro n hn
    by_cases h10 : n < 10
    · simp only [natReprAux, if_pos h10]
      refine ⟨by simp, by simp [digitChar_isDigit], ?_⟩
      intro a
      simp [digitChar_val h10]
    · simp only [natReprAux, if_neg h10]
      have hd : n / 10 < fuel := by
        have := Nat.div_lt_self (by omega : 0 < n) (by omega : 1 < 10)
        omega
      obtain ⟨hne, hdig, hfold⟩ := ih (n / 10) hd
      refine ⟨by simp, ?_, ?_⟩
      · intro c hc
        rcases List.mem_append.mp hc with hc | hc
        · exact hdig c hc
        · simp at hc
          subst hc
          exact digitChar_isDigit _
      · intro a
        rw [List.foldl_append, hfold a]
        simp only [List.foldl_cons, List.foldl_nil, List.length_append, List.length_cons,
          List.length_nil]
        rw [digitChar_val (Nat.mod_lt n (by omega))]
        have hmod := Nat.div_add_mod n 10
        have : (10 : Nat) ^ ((natReprAux fuel (n / 10)).length + (0 + 1))
            = 10 ^ (natReprAux fuel (n / 10)).length * 10 := by ring
        rw [this]
        ring_nf
        omega

theorem natReprL_ne_nil (n : Nat) : natReprL n ≠ [] :=
  (natReprAux_spec (n + 1) n (by omega)).1

theorem natReprL_digits (n : Nat) : ∀ c ∈ natReprL n, isDigitC c = true :=
  (natReprAux_spec (n + 1) n (by omega)).2.1

theorem digitsToNat_natReprL (n : Nat) : digitsToNat (natReprL n) = n := by
  have := (natReprAux_spec (n + 1) n (by omega)).2.2 0
  simpa [digitsToNat, natReprL] using this

theorem natReprAux_head_pos : ∀ fuel n, n < fuel → 1 ≤ n →
    ∃ d t, natReprAux fuel n = digitChar d :: t ∧ 1 ≤ d ∧ d ≤ 9 := by
  intro fuel
  induction fuel with
  | zero => intro n hn; omega
  | succ fuel ih =>
    intro n hn h1
    by_cases h10 : n < 10
    · exact ⟨n, [], by simp [natReprAux, if_pos h10], h1, by omega⟩
    · have hd : n / 10 < fuel := by
        have := Nat.div_lt_self (by omega : 0 < n) (by omega : 1 < 10)
        omega
      obtain ⟨d, t, ht, hd1, hd9⟩ := ih (n / 10) hd (by omega)
      exact ⟨d, t ++ [digitChar (n % 10)], by simp [natReprAux, if_neg h10, ht], hd1, hd9⟩

/-! ## Integer literal round trip -/

theorem takeWhile_all_append {p : Char → Bool} {l1 l2 : List Char}
    (h1 : ∀ c ∈ l1, p c = true) (h2 : ∀ c, l2.head? = some c → p c = false) :
    (l1 ++ l2).takeWhile p = l1 ∧ (l1 ++ l2).dropWhile p = l2 := by
  induction l1 with
  | nil =>
    refine ⟨?_, dropWhile_eq_self_of_head h2⟩
    cases l2 with
    | nil => rfl
    | cons c t => simp [List.takeWhile, h2 c rfl]
  | cons c t ih =>
    obtain ⟨ht, hd⟩ := ih (fun x hx => h1 x (List.mem_cons_of_mem c hx))
    have hc : p c = true := h1 c (List.mem_cons_self c t)
    refine ⟨?_, ?_⟩
    · simpa [List.takeWhile, hc] using ht
    · simpa [List.dropWhile, hc] using hd

theorem badNumTail_head {l : List Char} (h : badNumTail l = false) :
    ∀ c, l.head? = some c → isDigitC c = false := by
  intro c hc
  cases l with
  | nil => simp at hc
  | cons c2 t =>
    simp at hc
    subst hc
    simp only [badNumTail, Bool.or_eq_false_iff] at h
    exact h.1.1.1

theorem parseUInt_natReprL {n : Nat} {rest : List Char} (hrest : badNumTail rest = false) :
    parseUInt (natReprL n ++ rest) = some (n, rest) := by
  rcases Nat.eq_zero_or_pos n with rfl | hpos
  · show parseUInt ('0' :: rest) = some (0, rest)
    simp [parseUInt, hrest]
  · obtain ⟨d, t, ht, hd1, hd9⟩ := natReprAux_head_pos (n + 1) n (by omega) hpos
    have hrepr : natReprL n = digitChar d :: t := ht
    obtain ⟨htake, hdrop⟩ := takeWhile_all_append (natReprL_digits n) (badNumTail_head hrest)
    rw [hrepr] at htake hdrop ⊢
    rw [List.cons_append]
    simp only [parseUInt]
    rw [if_neg (digitChar_ne_zero hd1 hd9), if_pos (digitChar_isDigit d)]
    simp only [← List.cons_append, htake, hdrop, hrest]
    rw [← hrepr, digitsToNat_natReprL]
    simp

theorem isDigitC_ne_dash {c : Char} (h : isDigitC c = true) : c ≠ '-' := by
  rintro rfl
  exact absurd h (by decide)

theorem parseNum_intReprL {n : Int} {rest : List Char} (hrest : badNumTail rest = false) :
    parseNum (intReprL n ++ rest) = some (Json.num n, rest) := by
  cases n with
  | ofNat m =>
    show parseNum (natReprL m ++ rest) = _
    cases hh : natReprL m with
    | nil => exact absurd hh (natReprL_ne_nil m)
    | cons c t =>
      have hcd : isDigitC c = true :=
        natReprL_digits m c (by rw [hh]; exact List.mem_cons_self c t)
      rw [List.cons_append, parseNum.eq_2]
      rw [if_neg (isDigitC_ne_dash hcd), ← List.cons_append, ← hh,
        parseUInt_natReprL hrest]
      rfl
  | negSucc m =>
    show parseNum (('-' :: natReprL (m + 1)) ++ rest) = _
    rw [List.cons_append, parseNum.eq_2]
    rw [if_pos rfl, parseUInt_natReprL hrest]
    simp [Int.negSucc_eq]

/-! ## String escape round trip -/

theorem hexVal_hexDigit {k : Nat} (h : k < 16) : hexVal (hexDigit k) = some k := by
  interval_cases k <;> decide

theorem psb_backslash (fuel : Nat) (r : List Char) :
    parseStrBody (fuel + 1) ('\\' :: r) = parseEsc fuel r := by
  simp [parseStrBody]

theorem pe_u (fuel : Nat) (r : List Char) :
    parseEsc (fuel + 1) ('u' :: r) = parseU fuel r := by
  simp [parseEsc]

theorem parseStrBody_esc : ∀ (s : List Char) (fuel : Nat) (rest : List Char),
    (escBody s).length + 1 ≤ fuel →
    parseStrBody fuel (escBody s ++ ('"' :: rest)) = some (s, rest) := by
  intro s
  induction s with
  | nil =>
    intro fuel rest hfuel
    obtain ⟨f, rfl⟩ : ∃ f, fuel = f + 1 := ⟨fuel - 1, by omega⟩
    show parseStrBody (f + 1) ('"' :: rest) = _
    simp [parseStrBody]
  | cons c t ih =>
    intro fuel rest hfuel
    show parseStrBody fuel ((escapeChar c ++ escBody t) ++ ('"' :: rest)) = _
    rw [List.append_assoc]
    have hfl : (escBody (c :: t)).length = (escapeChar c).length + (escBody t).length := by
      simp [escBody]
    by_cases h1 : c = '"'
    · subst h1
      have he : escapeChar '"' = ['\\', '"'] := by simp [escapeChar]
      rw [he] at hfl ⊢
      simp only [List.length_cons, List.length_nil] at hfl
      obtain ⟨f, rfl⟩ : ∃ f, fuel = f + 2 := ⟨fuel - 2, by omega⟩
      simp only [List.cons_append, List.nil_append]
      rw [psb_backslash]
      simp [parseEsc, ih f rest (by omega)]
    by_cases h2 : c = '\\'
    · subst h2
      have he : escapeChar '\\' = ['\\', '\\'] := by simp [escapeChar]
      rw [he] at hfl ⊢
      simp only [List.length_cons, List.length_nil] at hfl
      obtain ⟨f, rfl⟩ : ∃ f, fuel = f + 2 := ⟨fuel - 2, by omega⟩
      simp only [List.cons_append, List.nil_append]
      rw [psb_backslash]
      simp [parseEsc, ih f rest (by omega)]
    by_cases h3 : c = '\n'
    · subst h3
      have he : escapeChar '\n' = ['\\', 'n'] := by simp [escapeChar]
      rw [he] at hfl ⊢
      simp only [List.length_cons, List.length_nil] at hfl
      obtain ⟨f, rfl⟩ : ∃ f, fuel = f + 2 := ⟨fuel - 2, by omega⟩
      simp only [List.cons_append, List.nil_append]
      rw [psb_backslash]
      simp [parseEsc, ih f rest (by omega)]
    by_cases h4 : c = '\t'
    · subst h4
      have he : escapeChar '\t' = ['\\', 't'] := by simp [escapeChar]
      rw [he] at hfl ⊢
      simp only [List.length_cons, List.length_nil] at hfl
      obtain ⟨f, rfl⟩ : ∃ f, fuel = f + 2 := ⟨fuel - 2, by omega⟩
      simp only [List.cons_append, List.nil_append]
      rw [psb_backslash]
      simp [parseEsc, ih f rest (by omega)]
    by_cases h5 : c = '\r'
    · subst h5
      have he : escapeChar '\r' = ['\\', 'r'] := by simp [escapeChar]
      rw [he] at hfl ⊢
      simp only [List.length_cons, List.length_nil] at hfl
      obtain ⟨f, rfl⟩ : ∃ f, fuel = f + 2 := ⟨fuel - 2, by omega⟩
      simp only [List.cons_append, List.nil_append]
      rw [psb_backslash]
      simp [parseEsc, ih f rest (by omega)]
    by_cases h6 : c = '\x08'
    · subst h6
      have he : escapeChar '\x08' = ['\\', 'b'] := by simp [escapeChar]
      rw [he] at hfl ⊢
      simp only [List.length_cons, List.length_nil] at hfl
      obtain ⟨f, rfl⟩ : ∃ f, fuel = f + 2 := ⟨fuel - 2, by omega⟩
      simp only [List.cons_append, List.nil_append]
      rw [psb_backslash]
      simp [parseEsc, ih f rest (by omega)]
    by_cases h7 : c = '\x0c'
    · subst h7
      have he : escapeChar '\x0c' = ['\\', 'f'] := by simp [escapeChar]
      rw [he] at hfl ⊢
      simp only [List.length_cons, List.length_nil] at hfl
      obtain ⟨f, rfl⟩ : ∃ f, fuel = f + 2 := ⟨fuel - 2, by omega⟩
      simp only [List.cons_append, List.nil_append]
      rw [psb_backslash]
      simp [parseEsc, ih f rest (by omega)]
    by_cases h8 : c.toNat < 0x20
    · have he : escapeChar c
          = ['\\', 'u', '0', '0', hexDigit (c.toNat / 16), hexDigit (c.toNat % 16)] := by
        simp [escapeChar, h1, h2, h3, h4, h5, h6, h7, h8]
      rw [he] at hfl ⊢
      simp only [List.length_cons, List.length_nil] at hfl
      obtain ⟨f, rfl⟩ : ∃ f, fuel = f + 3 := ⟨fuel - 3, by omega⟩
      have hhi : hexVal (hexDigit (c.toNat / 16)) = some (c.toNat / 16) :=
        hexVal_hexDigit (by omega)
      have hlo : hexVal (hexDigit (c.toNat % 16)) = some (c.toNat % 16) :=
        hexVal_hexDigit (Nat.mod_lt _ (by omega))
      simp only [List.cons_append, List.nil_append]
      rw [show f + 3 = (f + 2) + 1 from rfl, psb_backslash,
        show f + 2 = (f + 1) + 1 from rfl, pe_u]
      have hq : hexQuad '0' '0' (hexDigit (c.toNat / 16)) (hexDigit (c.toNat % 16))
          = some (((0 * 16 + 0) * 16 + c.toNat / 16) * 16 + c.toNat % 16) := by
        simp [hexQuad, hhi, hlo, show hexVal '0' = some 0 from by decide]
      simp only [parseU, hq]
      have hval : ((0 * 16 + 0) * 16 + c.toNat / 16) * 16 + c.toNat % 16 = c.toNat := by
        have := Nat.div_add_mod c.toNat 16
        omega
      rw [hval]
      rw [if_neg (by omega), if_neg (by omega), Char.ofNat_toNat, ih f rest (by omega)]
      rfl
    · have he : escapeChar c = [c] := by
        simp [escapeChar, h1, h2, h3, h4, h5, h6, h7, h8]
      rw [he] at hfl ⊢
      simp only [List.length_cons, List.length_nil] at hfl
      obtain ⟨f, rfl⟩ : ∃ f, fuel = f + 1 := ⟨fuel - 1, by omega⟩
      simp only [List.cons_append, List.nil_append]
      simp only [parseStrBody]
      rw [if_neg h1, if_neg h2, if_neg h8, ih f rest (by omega)]
      rfl

/-! ## Character facts for the serialised output -/

theorem digit_ne_special {c : Char} (h : isDigitC c = true) :
    c ≠ '"' ∧ c ≠ '[' ∧ c ≠ '\x7b' ∧ c ≠ 'n' ∧ c ≠ 't' ∧ c ≠ 'f' ∧ c ≠ ']' ∧ c ≠ '\x7d'
      ∧ c ≠ '\n' ∧ c ≠ '-' ∧ c ≠ '\\' := by
  and_intros <;> rintro rfl <;> exact absurd h (by decide)

theorem natReprL_head (n : Nat) :
    ∃ c t, natReprL n = c :: t ∧ isDigitC c = true := by
  cases hh : natReprL n with
  | nil => exact absurd hh (natReprL_ne_nil n)
  | cons c t =>
    exact ⟨c, t, rfl, natReprL_digits n c (by rw [hh]; exact List.mem_cons_self c t)⟩

theorem natReprL_last (n : Nat) :
    ∃ i d, natReprL n = i ++ [digitChar d] := by
  show ∃ i d, natReprAux (n + 1) n = i ++ [digitChar d]
  by_cases h10 : n < 10
  · exact ⟨[], n, by simp [natReprAux, if_pos h10]⟩
  · exact ⟨natReprAux n (n / 10), n % 10, by simp [natReprAux, if_neg h10]⟩

theorem hexDigit_ge (k : Nat) : 48 ≤ (hexDigit k).toNat := by
  rcases k with _|_|_|_|_|_|_|_|_|_|_|_|_|_|_|k <;>
    first
      | decide
      | exact (by decide : 48 ≤ ('f' : Char).toNat)

theorem notWs_of_ge {c : Char} (h : 48 ≤ c.toNat) :
    isPySpace c = false ∧ isJsonWs c = false ∧ c ≠ '\n' := by
  refine ⟨?_, ?_, ?_⟩
  · simp only [isPySpace, Bool.or_eq_false_iff, beq_eq_false_iff_ne, ne_eq]
    and_intros <;> rintro rfl <;> exact absurd h (by decide)
  · simp only [isJsonWs, Bool.or_eq_false_iff, beq_eq_false_iff_ne, ne_eq]
    and_intros <;> rintro rfl <;> exact absurd h (by decide)
  · rintro rfl; exact absurd h (by decide)

/-- The first character of a serialised value: never whitespace, never a
closing bracket or brace. -/
theorem dumpsVal_head (X : Json) :
    ∃ c t, dumpsVal X = c :: t ∧ isJsonWs c = false ∧ isPySpace c = false
      ∧ c ≠ ']' ∧ c ≠ '\x7d' := by
  cases X with
  | null =>
    exact ⟨'n', ['u', 'l', 'l'], by decide, by decide, by decide, by decide, by decide⟩
  | bool b =>
    cases b with
    | true => exact ⟨'t', ['r', 'u', 'e'], by decide, by decide, by decide, by decide, by decide⟩
    | false =>
      exact ⟨'f', ['a', 'l', 's', 'e'], by decide, by decide, by decide, by decide, by decide⟩
  | num n =>
    cases n with
    | ofNat m =>
      obtain ⟨c, t, ht, hd⟩ := natReprL_head m
      obtain ⟨hw1, hw2⟩ := notWs_of_digit hd
      obtain ⟨_, _, _, _, _, _, h7, h8, _, _, _⟩ := digit_ne_special hd
      exact ⟨c, t, by simpa [dumpsVal, intReprL] using ht, hw1, hw2, h7, h8⟩
    | negSucc m =>
      exact ⟨'-', natReprL (m + 1), by simp [dumpsVal, intReprL],
        by decide, by decide, by decide, by decide⟩
  | str s =>
    exact ⟨'"', escBody s ++ ['"'], by simp [dumpsVal, dumpsStr],
      by decide, by decide, by decide, by decide⟩
  | arr xs =>
    exact ⟨'[', dumpsElems xs ++ [']'], by simp [dumpsVal],
      by decide, by decide, by decide, by decide⟩
  | obj fs =>
    exact ⟨'\x7b', dumpsFields fs ++ ['\x7d'], by simp [dumpsVal],
      by decide, by decide, by decide, by decide⟩

/-- The last character of a serialised value is never whitespace. -/
theorem dumpsVal_last (X : Json) :
    ∃ i c, dumpsVal X = i ++ [c] ∧ isPySpace c = false := by
  cases X with
  | null => exact ⟨['n', 'u', 'l'], 'l', by decide, by decide⟩
  | bool b =>
    cases b with
    | true => exact ⟨['t', 'r', 'u'], 'e', by decide, by decide⟩
    | false => exact ⟨['f', 'a', 'l', 's'], 'e', by decide, by decide⟩
  | num n =>
    cases n with
    | ofNat m =>
      obtain ⟨i, d, hh⟩ := natReprL_last m
      exact ⟨i, digitChar d, by simpa [dumpsVal, intReprL] using hh,
        (notWs_of_digit (digitChar_isDigit d)).2⟩
    | negSucc m =>
      obtain ⟨i, d, hh⟩ := natReprL_last (m + 1)
      exact ⟨'-' :: i, digitChar d, by simp [dumpsVal, intReprL, hh],
        (notWs_of_digit (digitChar_isDigit d)).2⟩
  | str s =>
    exact ⟨'"' :: escBody s, '"', by simp [dumpsVal, dumpsStr], by decide⟩
  | arr xs => exact ⟨'[' :: dumpsElems xs, ']', by simp [dumpsVal], by decide⟩
  | obj fs => exact ⟨'\x7b' :: dumpsFields fs, '\x7d', by simp [dumpsVal], by decide⟩

/-- Serialised output of a value survives Python strip unchanged. -/
theorem pyStrip_dumpsVal (X : Json) : pyStrip (dumpsVal X) = dumpsVal X := by
  obtain ⟨c, t, hh, _, hw, _, _⟩ := dumpsVal_head X
  obtain ⟨i, c2, hl, hw2⟩ := dumpsVal_last X
  refine pyStrip_eq_self ?_ ?_
  · intro x hx
    rw [hh] at hx
    simp at hx
    subst hx
    exact hw
  · intro x hx
    rw [hl, List.getLast?_concat] at hx
    simp at hx
    subst hx
    exact hw2

theorem skipWs_dumpsVal_append (X : Json) (rest : List Char) :
    skipWs (dumpsVal X ++ rest) = dumpsVal X ++ rest := by
  obtain ⟨c, t, hh, hw, _, _, _⟩ := dumpsVal_head X
  refine skipWs_eq_self_of_head ?_
  intro x hx
  rw [hh] at hx
  simp at hx
  subst hx
  exact hw

/-! ## The serialised output contains no newline (the fence regex requires
one, so fence extraction never fires on it) -/

theorem escapeChar_no_newline (c : Char) : '\n' ∉ escapeChar c := by
  unfold escapeChar
  split
  · decide
  split
  · decide
  split
  · decide
  split
  · decide
  split
  · decide
  split
  · decide
  split
  · decide
  split
  · intro hmem
    have hx : 48 ≤ ('\n' : Char).toNat := by
      simp at hmem
      rcases hmem with h | h
      all_goals (rw [h]; exact hexDigit_ge _)
    exact absurd hx (by decide)
  · rename_i h1 h2 h3 h4 h5 h6 h7 h8
    intro hmem
    simp at hmem
    exact h3 hmem.symm

theorem escBody_no_newline (s : List Char) : '\n' ∉ escBody s := by
  induction s with
  | nil => simp [escBody]
  | cons c t ih =>
    simp only [escBody]
    intro hmem
    rcases List.mem_append.mp hmem with h | h
    · exact escapeChar_no_newline c h
    · exact ih h

theorem dumpsStr_no_newline (s : List Char) : '\n' ∉ dumpsStr s := by
  simp only [dumpsStr]
  intro hmem
  rcases List.mem_cons.mp hmem with h | h
  · exact absurd h (by decide)
  rcases List.mem_append.mp h with h | h
  · exact escBody_no_newline s h
  · simp at h

theorem natReprL_no_newline (n : Nat) : '\n' ∉ natReprL n := by
  intro hmem
  have := natReprL_digits n '\n' hmem
  exact absurd this (by decide)

theorem intReprL_no_newline (n : Int) : '\n' ∉ intReprL n := by
  cases n with
  | ofNat m => exact natReprL_no_newline m
  | negSucc m =>
    simp only [intReprL]
    intro hmem
    rcases List.mem_cons.mp hmem with h | h
    · exact absurd h (by decide)
    · exact natReprL_no_newline (m + 1) h

/-! ## Whitespace-skipping commutes with the parser entry points -/

theorem skipWs_cons_ws {c : Char} (h : isJsonWs c = true) (s : List Char) :
    skipWs (c :: s) = skipWs s := by
  simp [skipWs, List.dropWhile, h]

theorem skipWs_cons_not {c : Char} (h : isJsonWs c = false) (s : List Char) :
    skipWs (c :: s) = c :: s := by
  simp [skipWs, List.dropWhile, h]

theorem parseVal_cons_ws {c : Char} (h : isJsonWs c = true) (fuel : Nat) (s : List Char) :
    parseVal fuel (c :: s) = parseVal fuel s := by
  cases fuel with
  | zero => rfl
  | succ f =>
    simp only [parseVal]
    rw [skipWs_cons_ws h]

theorem parseElems_cons_ws {c : Char} (h : isJsonWs c = true) (fuel : Nat) (s : List Char) :
    parseElems fuel (c :: s) = parseElems fuel s := by
  cases fuel with
  | zero => rfl
  | succ f =>
    simp only [parseElems]
    rw [parseVal_cons_ws h]

/-! ## Well-formedness projections -/

theorem wfL_mem : ∀ {xs : List Json}, wfL xs = true → ∀ x ∈ xs, wfJ x = true := by
  intro xs
  induction xs with
  | nil => intro _ x hx; cases hx
  | cons a t ih =>
    intro h x hx
    simp only [wfL, Bool.and_eq_true] at h
    rcases List.mem_cons.mp hx with rfl | hx
    · exact h.1
    · exact ih h.2 x hx

theorem wfF_mem : ∀ {fs : List (List Char × Json)}, wfF fs = true →
    ∀ p ∈ fs, wfJ (Prod.snd p) = true := by
  intro fs
  induction fs with
  | nil => intro _ p hp; cases hp
  | cons q t ih =>
    intro h p hp
    cases q with
    | mk k v =>
      simp only [wfF, Bool.and_eq_true] at h
      rcases List.mem_cons.mp hp with rfl | hp
      · exact h.1
      · exact ih h.2 p hp

/-! ## Dict construction is the identity on unique-key member lists -/

theorem insertField_append : ∀ {fs : List (List Char × Json)} {k : List Char} {v : Json},
    fs.all (fun p => !(p.1 == k)) = true → insertField fs k v = fs ++ [(k, v)] := by
  intro fs
  induction fs with
  | nil => intro k v _; rfl
  | cons q t ih =>
    intro k v h
    cases q with
    | mk k0 v0 =>
      simp only [List.all_cons, Bool.and_eq_true, Bool.not_eq_true', beq_eq_false_iff_ne,
        ne_eq] at h
      simp only [insertField]
      rw [if_neg h.1, ih h.2]
      rfl

theorem dictify_aux : ∀ (fs acc : List (List Char × Json)), keysUniq fs = true →
    (∀ p ∈ fs, acc.all (fun q => !(q.1 == p.1)) = true) →
    List.foldl (fun a p => insertField a p.1 p.2) acc fs = acc ++ fs := by
  intro fs
  induction fs with
  | nil => intro acc _ _; simp
  | cons q t ih =>
    intro acc hu hd
    cases q with
    | mk k v =>
      simp only [keysUniq, Bool.and_eq_true] at hu
      simp only [List.foldl_cons]
      rw [show insertField acc k v = acc ++ [(k, v)] from
        insertField_append (hd (k, v) (List.mem_cons_self _ _))]
      rw [ih (acc ++ [(k, v)]) hu.2 ?_]
      · simp
      · intro p hp
        rw [List.all_append]
        simp only [Bool.and_eq_true]
        refine ⟨hd p (List.mem_cons_of_mem _ hp), ?_⟩
        simp only [List.all_cons, List.all_nil, Bool.and_true]
        have hall := List.all_eq_true.mp hu.1 p hp
        simp only [Bool.not_eq_true', beq_eq_false_iff_ne, ne_eq] at hall ⊢
        exact fun hcon => hall hcon.symm

theorem dictify_uniq {fs : List (List Char × Json)} (h : keysUniq fs = true) :
    dictify fs = fs := by
  have := dictify_aux fs [] h (by intro p _; rfl)
  simpa [dictify] using this

/-! ## Heads of serialised element and member lists -/

theorem dumpsElems_head (x : Json) (xs : List Json) :
    ∃ c t, dumpsElems (x :: xs) = c :: t ∧ isJsonWs c = false ∧ c ≠ ']' := by
  obtain ⟨c, t, hh, hw, _, hb, _⟩ := dumpsVal_head x
  cases xs with
  | nil => exact ⟨c, t, by simp [dumpsElems, hh], hw, hb⟩
  | cons y t2 =>
    exact ⟨c, t ++ ',' :: ' ' :: dumpsElems (y :: t2), by simp [dumpsElems, hh], hw, hb⟩

theorem dumpsFields_head (p : List Char × Json) (fs : List (List Char × Json)) :
    ∃ t, dumpsFields (p :: fs) = '"' :: t := by
  cases p with
  | mk k v =>
    cases fs with
    | nil =>
      exact ⟨(escBody k ++ ['"']) ++ ':' :: ' ' :: dumpsVal v, by simp [dumpsFields, dumpsStr]⟩
    | cons e t2 =>
      exact ⟨(escBody k ++ ['"'])
          ++ ':' :: ' ' :: dumpsVal v ++ ',' :: ' ' :: dumpsFields (e :: t2),
        by simp [dumpsFields, dumpsStr]⟩

/-! ## The serialisation round trip -/

/-- A value round-trips through the parser with any sufficient fuel and any
continuation that cannot extend a number literal. -/
def RoundJ (X : Json) : Prop :=
  ∀ fuel rest, mvJ X ≤ fuel → badNumTail rest = false →
    parseVal fuel (dumpsVal X ++ rest) = some (X, rest)

theorem parseElems_dumps : ∀ (xs : List Json), xs ≠ [] →
    (∀ x ∈ xs, wfJ x = true → RoundJ x) → wfL xs = true →
    ∀ fuel rest, mvL xs ≤ fuel →
      parseElems fuel (dumpsElems xs ++ (']' :: rest)) = some (xs, rest) := by
  intro xs
  induction xs with
  | nil => intro h; exact absurd rfl h
  | cons x t ih =>
    intro _ hx hwf fuel rest hfuel
    have hwx : wfJ x = true := wfL_mem hwf x (List.mem_cons_self _ _)
    have hrx : RoundJ x := hx x (List.mem_cons_self _ _) hwx
    simp only [mvL] at hfuel
    cases t with
    | nil =>
      obtain ⟨f, rfl⟩ : ∃ f, fuel = f + 1 := ⟨fuel - 1, by simp [mvL] at hfuel; omega⟩
      have hd : dumpsElems [x] = dumpsVal x := by simp [dumpsElems]
      rw [hd]
      simp only [parseElems]
      rw [hrx f (']' :: rest) (by simp [mvL] at hfuel; omega) (by rfl)]
      simp [skipWs_cons_not (by decide : isJsonWs ']' = false)]
    | cons y t2 =>
      obtain ⟨f, rfl⟩ : ∃ f, fuel = f + 1 := ⟨fuel - 1, by omega⟩
      have hd : dumpsElems (x :: y :: t2) = dumpsVal x ++ ',' :: ' ' :: dumpsElems (y :: t2) := by
        simp [dumpsElems]
      rw [hd, List.append_assoc]
      simp only [parseElems]
      rw [hrx f _ (by omega) (by rfl)]
      have hstep : parseElems f (' ' :: (dumpsElems (y :: t2) ++ (']' :: rest)))
          = some (y :: t2, rest) := by
        rw [parseElems_cons_ws (by decide : isJsonWs ' ' = true)]
        exact ih (by simp) (fun z hz => hx z (List.mem_cons_of_mem _ hz))
          (by simp only [wfL, Bool.and_eq_true] at hwf ⊢; exact hwf.2) f rest (by omega)
      simp [skipWs_cons_not (by decide : isJsonWs ',' = false), hstep]

theorem parseFields_dumps : ∀ (fs : List (List Char × Json)), fs ≠ [] →
    (∀ p ∈ fs, wfJ (Prod.snd p) = true → RoundJ (Prod.snd p)) → wfF fs = true →
    ∀ fuel rest, mvF fs ≤ fuel →
      parseFields fuel (dumpsFields fs ++ ('\x7d' :: rest)) = some (fs, rest) := by
  intro fs
  induction fs with
  | nil => intro h; exact absurd rfl h
  | cons q t ih =>
    intro _ hx hwf fuel rest hfuel
    cases q with
    | mk k v =>
      have hwv : wfJ v = true := wfF_mem hwf (k, v) (List.mem_cons_self _ _)
      have hrv : RoundJ v := hx (k, v) (List.mem_cons_self _ _) hwv
      simp only [mvF] at hfuel
      obtain ⟨f, rfl⟩ : ∃ f, fuel = f + 1 := ⟨fuel - 1, by omega⟩
      cases t with
      | nil =>
        have hd : dumpsFields [(k, v)] ++ ('\x7d' :: rest)
            = '"' :: (escBody k ++ ('"' :: (':' :: ' ' :: (dumpsVal v ++ ('\x7d' :: rest))))) := by
          simp [dumpsFields, dumpsStr]
        rw [hd]
        simp only [parseFields, if_true]
        rw [parseStrBody_esc k _ _ (by simp)]
        have hv : parseVal f (' ' :: (dumpsVal v ++ ('\x7d' :: rest)))
            = some (v, '\x7d' :: rest) := by
          rw [parseVal_cons_ws (by decide : isJsonWs ' ' = true)]
          exact hrv f ('\x7d' :: rest) (by omega) (by rfl)
        simp [hv, skipWs_cons_not (by decide : isJsonWs ':' = false),
          skipWs_cons_not (by decide : isJsonWs '\x7d' = false)]
      | cons e t2 =>
        have hd : dumpsFields ((k, v) :: e :: t2) ++ ('\x7d' :: rest)
            = '"' :: (escBody k ++ ('"' :: (':' :: ' '
                :: (dumpsVal v ++ (',' :: ' ' :: (dumpsFields (e :: t2) ++ ('\x7d' :: rest))))))) := by
          simp [dumpsFields, dumpsStr]
        rw [hd]
        simp only [parseFields, if_true]
        rw [parseStrBody_esc k _ _ (by simp)]
        have hv : parseVal f
              (' ' :: (dumpsVal v ++ (',' :: ' ' :: (dumpsFields (e :: t2) ++ ('\x7d' :: rest)))))
            = some (v, ',' :: ' ' :: (dumpsFields (e :: t2) ++ ('\x7d' :: rest))) := by
          rw [parseVal_cons_ws (by decide : isJsonWs ' ' = true)]
          exact hrv f _ (by omega) (by rfl)
        have hstep : parseFields f (skipWs (' ' :: (dumpsFields (e :: t2) ++ ('\x7d' :: rest))))
            = some (e :: t2, rest) := by
          rw [skipWs_cons_ws (by decide : isJsonWs ' ' = true)]
          obtain ⟨tt, htt⟩ := dumpsFields_head e t2
          rw [show skipWs (dumpsFields (e :: t2) ++ ('\x7d' :: rest))
              = dumpsFields (e :: t2) ++ ('\x7d' :: rest) from by
            rw [htt]; exact skipWs_cons_not (by decide) _]
          exact ih (by simp) (fun p hp => hx p (List.mem_cons_of_mem _ hp))
            (by simp only [wfF, Bool.and_eq_true] at hwf ⊢; exact hwf.2) f rest (by omega)
        simp [hv, hstep, skipWs_cons_not (by decide : isJsonWs ':' = false),
          skipWs_cons_not (by decide : isJsonWs ',' = false)]

theorem parseVal_dumps : ∀ X : Json, wfJ X = true → RoundJ X := by
  intro X
  induction X using jsonInd with
  | h1 =>
    intro _ fuel rest hfuel _
    obtain ⟨f, rfl⟩ : ∃ f, fuel = f + 1 := ⟨fuel - 1, by simp [mvJ] at hfuel; omega⟩
    show parseVal (f + 1) (['n', 'u', 'l', 'l'] ++ rest) = _
    simp only [List.cons_append, List.nil_append, parseVal]
    rw [skipWs_cons_not (by decide : isJsonWs 'n' = false)]
    simp [startsWithL]
  | h2 b =>
    intro _ fuel rest hfuel _
    obtain ⟨f, rfl⟩ : ∃ f, fuel = f + 1 := ⟨fuel - 1, by simp [mvJ] at hfuel; omega⟩
    cases b with
    | true =>
      show parseVal (f + 1) (['t', 'r', 'u', 'e'] ++ rest) = _
      simp only [List.cons_append, List.nil_append, parseVal]
      rw [skipWs_cons_not (by decide : isJsonWs 't' = false)]
      simp [startsWithL]
    | false =>
      show parseVal (f + 1) (['f', 'a', 'l', 's', 'e'] ++ rest) = _
      simp only [List.cons_append, List.nil_append, parseVal]
      rw [skipWs_cons_not (by decide : isJsonWs 'f' = false)]
      simp [startsWithL]
  | h3 n =>
    intro _ fuel rest hfuel hrest
    obtain ⟨f, rfl⟩ : ∃ f, fuel = f + 1 := ⟨fuel - 1, by simp [mvJ] at hfuel; omega⟩
    show parseVal (f + 1) (intReprL n ++ rest) = _
    cases n with
    | ofNat m =>
      obtain ⟨c, t, ht, hd⟩ := natReprL_head m
      obtain ⟨_, _, _, h4, h5, h6, _, _, _, _, _⟩ := digit_ne_special hd
      obtain ⟨h1, h2, h3, _, _, _, _, _, _, _, _⟩ := digit_ne_special hd
      have hw := notWs_of_digit hd
      rw [show intReprL (Int.ofNat m) = c :: t from ht, List.cons_append]
      simp only [parseVal]
      rw [skipWs_cons_not hw.1]
      simp only [if_neg h1, if_neg h2, if_neg h3, if_neg h4, if_neg h5, if_neg h6]
      rw [← List.cons_append, ← ht]
      exact @parseNum_intReprL (Int.ofNat m) rest hrest
    | negSucc m =>
      rw [show intReprL (Int.negSucc m) = '-' :: natReprL (m + 1) from rfl, List.cons_append]
      simp only [parseVal]
      rw [skipWs_cons_not (by decide : isJsonWs '-' = false)]
      simp only [if_neg (by decide : ¬('-' : Char) = '"'),
        if_neg (by decide : ¬('-' : Char) = '['), if_neg (by decide : ¬('-' : Char) = '\x7b'),
        if_neg (by decide : ¬('-' : Char) = 'n'), if_neg (by decide : ¬('-' : Char) = 't'),
        if_neg (by decide : ¬('-' : Char) = 'f')]
      rw [← List.cons_append]
      exact @parseNum_intReprL (Int.negSucc m) rest hrest
  | h4 s =>
    intro _ fuel rest hfuel _
    obtain ⟨f, rfl⟩ : ∃ f, fuel = f + 1 := ⟨fuel - 1, by simp [mvJ] at hfuel; omega⟩
    show parseVal (f + 1) (dumpsStr s ++ rest) = _
    rw [show dumpsStr s ++ rest = '"' :: (escBody s ++ ('"' :: rest)) from by simp [dumpsStr]]
    simp only [parseVal]
    rw [skipWs_cons_not (by decide : isJsonWs '"' = false)]
    simp only [if_pos rfl]
    rw [parseStrBody_esc s _ _ (by simp)]
    rfl
  | h5 xs hxs =>
    intro hwf fuel rest hfuel _
    simp only [wfJ] at hwf
    simp only [mvJ] at hfuel
    obtain ⟨f, rfl⟩ : ∃ f, fuel = f + 1 := ⟨fuel - 1, by omega⟩
    cases xs with
    | nil =>
      show parseVal (f + 1) (('[' :: dumpsElems []) ++ ([']'] ++ rest)) = _
      simp only [dumpsElems, List.cons_append, List.nil_append, List.append_nil, parseVal]
      rw [skipWs_cons_not (by decide : isJsonWs '[' = false)]
      simp [skipWs_cons_not (by decide : isJsonWs ']' = false)]
    | cons x t =>
      rw [show dumpsVal (Json.arr (x :: t)) ++ rest
          = '[' :: (dumpsElems (x :: t) ++ (']' :: rest)) from by simp [dumpsVal]]
      simp only [parseVal]
      rw [skipWs_cons_not (by decide : isJsonWs '[' = false)]
      obtain ⟨c, tt, hct, hcw, hcb⟩ := dumpsElems_head x t
      have hskip : skipWs (dumpsElems (x :: t) ++ (']' :: rest))
          = dumpsElems (x :: t) ++ (']' :: rest) := by
        rw [hct]; exact skipWs_cons_not hcw _
      simp only [if_neg (by decide : ¬('[' : Char) = '"'), if_pos rfl, hskip]
      rw [if_neg (show ¬((dumpsElems (x :: t) ++ (']' :: rest)).head? = some ']') from by
        rw [hct]; simp [hcb])]
      rw [parseElems_dumps (x :: t) (by simp) hxs hwf f rest (by omega)]
      rfl
  | h6 fs hfs =>
    intro hwf fuel rest hfuel _
    simp only [wfJ, Bool.and_eq_true] at hwf
    simp only [mvJ] at hfuel
    obtain ⟨f, rfl⟩ : ∃ f, fuel = f + 1 := ⟨fuel - 1, by omega⟩
    cases fs with
    | nil =>
      show parseVal (f + 1) (('\x7b' :: dumpsFields []) ++ (['\x7d'] ++ rest)) = _
      simp only [dumpsFields, List.cons_append, List.nil_append, List.append_nil, parseVal]
      rw [skipWs_cons_not (by decide : isJsonWs '\x7b' = false)]
      simp [skipWs_cons_not (by decide : isJsonWs '\x7d' = false), dictify]
    | cons q t =>
      rw [show dumpsVal (Json.obj (q :: t)) ++ rest
          = '\x7b' :: (dumpsFields (q :: t) ++ ('\x7d' :: rest)) from by simp [dumpsVal]]
      simp only [parseVal]
      rw [skipWs_cons_not (by decide : isJsonWs '\x7b' = false)]
      obtain ⟨tt, htt⟩ := dumpsFields_head q t
      have hskip : skipWs (dumpsFields (q :: t) ++ ('\x7d' :: rest))
          = dumpsFields (q :: t) ++ ('\x7d' :: rest) := by
        rw [htt]; exact skipWs_cons_not (by decide) _
      simp only [if_neg (by decide : ¬('\x7b' : Char) = '"'),
        if_neg (by decide : ¬('\x7b' : Char) = '['), if_pos rfl, hskip]
      rw [if_neg (show ¬((dumpsFields (q :: t) ++ ('\x7d' :: rest)).head? = some '\x7d') from by
        rw [htt]; simp)]
      rw [parseFields_dumps (q :: t) (by simp) hfs hwf.2 f rest (by omega)]
      simp [dictify_uniq hwf.1]

/-- The fuel used by `loads` dominates the fuel measure on serialised values. -/
theorem mvJ_le_dumps : ∀ X : Json, mvJ X ≤ 2 * (dumpsVal X).length + 1 := by
  intro X
  induction X using jsonInd with
  | h1 => simp [mvJ]
  | h2 b => cases b <;> simp [mvJ, dumpsVal]
  | h3 n => simp only [mvJ]; omega
  | h4 s => simp only [mvJ]; omega
  | h5 xs hxs =>
    have hB : ∀ ys : List Json, (∀ x ∈ ys, mvJ x ≤ 2 * (dumpsVal x).length + 1) →
        mvL ys ≤ 2 * (dumpsElems ys).length + 3 := by
      intro ys
      induction ys with
      | nil => intro _; simp [mvL, dumpsElems]
      | cons x t ih =>
        intro hmem
        have h1 := hmem x (List.mem_cons_self x t)
        have h2 := ih (fun z hz => hmem z (List.mem_cons_of_mem x hz))
        cases t with
        | nil =>
          simp only [mvL, dumpsElems]
          omega
        | cons y t2 =>
          simp only [mvL, dumpsElems, List.length_append, List.length_cons] at h2 ⊢
          omega
    have := hB xs hxs
    simp only [mvJ, dumpsVal, List.length_cons, List.length_append, List.length_singleton]
    omega
  | h6 fs hfs =>
    have hC : ∀ gs : List (List Char × Json),
        (∀ p ∈ gs, mvJ p.2 ≤ 2 * (dumpsVal p.2).length + 1) →
        mvF gs ≤ 2 * (dumpsFields gs).length + 3 := by
      intro gs
      induction gs with
      | nil => intro _; simp [mvF, dumpsFields]
      | cons q t ih =>
        intro hmem
        obtain ⟨k, v⟩ := q
        have h1 := hmem (k, v) (List.mem_cons_self (k, v) t)
        have h2 := ih (fun z hz => hmem z (List.mem_cons_of_mem (k, v) hz))
        cases t with
        | nil =>
          simp only [mvF, dumpsFields, List.length_append, List.length_cons] at h1 ⊢
          omega
        | cons e t2 =>
          simp only [mvF, dumpsFields, List.length_append, List.length_cons] at h1 h2 ⊢
          omega
    have := hC fs hfs
    simp only [mvJ, dumpsVal, List.length_cons, List.length_append, List.length_singleton]
    omega

/-- Serialise-then-parse round trip for every representable value. -/
theorem loads_dumps (X : Json) (hwf : wfJ X = true) : loads (dumpsVal X) = some X := by
  have h := parseVal_dumps X hwf (2 * (dumpsVal X).length + 2) []
    (by have := mvJ_le_dumps X; omega) (by decide)
  rw [List.append_nil] at h
  simp [loads, h, skipWs]

/-! ## The serialisation of a value contains no newline at all, so the fence
regex (whose match requires a mandatory newline) cannot fire on it. -/

theorem dumpsVal_no_newline : ∀ X : Json, '\n' ∉ dumpsVal X := by
  intro X
  induction X using jsonInd with
  | h1 => decide
  | h2 b => cases b <;> decide
  | h3 n => exact intReprL_no_newline n
  | h4 s => exact dumpsStr_no_newline s
  | h5 xs hxs =>
    have hE : ∀ ys : List Json, (∀ x ∈ ys, '\n' ∉ dumpsVal x) →
        '\n' ∉ dumpsElems ys := by
      intro ys
      induction ys with
      | nil => intro _ h; simp [dumpsElems] at h
      | cons x t ih =>
        intro hmem
        cases t with
        | nil =>
          simp only [dumpsElems]
          exact hmem x (List.mem_cons_self x [])
        | cons y t2 =>
          intro hin
          simp only [dumpsElems] at hin
          simp at hin
          rcases hin with h | h
          · exact hmem x (List.mem_cons_self x (y :: t2)) h
          · exact ih (fun z hz => hmem z (List.mem_cons_of_mem x hz)) h
    intro hin
    simp only [dumpsVal] at hin
    simp at hin
    exact hE xs hxs hin
  | h6 fs hfs =>
    have hF : ∀ gs : List (List Char × Json), (∀ p ∈ gs, '\n' ∉ dumpsVal p.2) →
        '\n' ∉ dumpsFields gs := by
      intro gs
      induction gs with
      | nil => intro _ h; simp [dumpsFields] at h
      | cons q t ih =>
        intro hmem
        obtain ⟨k, v⟩ := q
        have hv := hmem (k, v) (List.mem_cons_self (k, v) t)
        have hk := dumpsStr_no_newline k
        cases t with
        | nil =>
          intro hin
          simp only [dumpsFields] at hin
          simp at hin
          rcases hin with h | h
          · exact hk h
          · exact hv h
        | cons e t2 =>
          intro hin
          simp only [dumpsFields] at hin
          simp at hin
          rcases hin with h | h | h
          · exact hk h
          · exact hv h
          · exact ih (fun z hz => hmem z (List.mem_cons_of_mem (k, v) hz)) h
    intro hin
    simp only [dumpsVal] at hin
    simp at hin
    exact hF fs hfs hin

theorem matchLazy_none {s : List Char} (h : '\n' ∉ s) : matchLazy s = none := by
  induction s with
  | nil => rfl
  | cons c t ih =>
    have hc : (c == '\n') = false := by
      rw [beq_eq_false_iff_ne]
      intro hcc
      exact h (hcc ▸ List.mem_cons_self c t)
    simp [matchLazy, hc, ih (fun hm => h (List.mem_cons_of_mem c hm))]

theorem head_drop_mem {s : List Char} {j : Nat} {c : Char}
    (h : (s.drop j).head? = some c) : c ∈ s := by
  have h1 : c ∈ s.drop j := by
    cases hd : s.drop j with
    | nil => rw [hd] at h; cases h
    | cons x r =>
      rw [hd] at h
      simp only [List.head?_cons, Option.some.injEq] at h
      rw [← h]
      exact List.mem_cons_self x r
  exact List.drop_subset j s h1

theorem tryNewlineAt_none {s : List Char} (h : '\n' ∉ s) :
    ∀ js : List Nat, tryNewlineAt s js = none := by
  intro js
  induction js with
  | nil => rfl
  | cons j t ih =>
    simp only [tryNewlineAt]
    rw [if_neg (fun hh => h (head_drop_mem hh))]
    exact ih

theorem matchAfterTag_none {s : List Char} (h : '\n' ∉ s) : matchAfterTag s = none :=
  tryNewlineAt_none h _

theorem matchAt_none {s : List Char} (h : '\n' ∉ s) : matchAt s = none := by
  have h3 : '\n' ∉ s.drop 3 := fun hm => h (List.drop_subset 3 s hm)
  have h7 : '\n' ∉ s.drop 7 := fun hm => h (List.drop_subset 7 s hm)
  by_cases ht : startsWithL (s.drop 3) ['j', 's', 'o', 'n'] = true
  · simp [matchAt, ht, matchAfterTag_none h3, matchAfterTag_none h7]
  · simp [matchAt, ht, matchAfterTag_none h3]

theorem fenceSearch_none {s : List Char} (h : '\n' ∉ s) : fenceSearch s = none := by
  induction s with
  | nil => rfl
  | cons c t ih =>
    simp only [fenceSearch]
    rw [matchAt_none h]
    exact ih (fun hm => h (List.mem_cons_of_mem c hm))

/-! ## The recovery pipelines, expressed through the staged view -/

theorem recoverRunCheck_staged (stdout : List Char) :
    recoverRunCheck stdout =
      match unwrapStage (pyStrip stdout) with
      | none => RecResult.attrError
      | some raw1 =>
        match loads (fenceStage raw1) with
        | some v => RecResult.ok v
        | none => RecResult.parseError (errRC ++ fenceStage raw1) := rfl

theorem recoverInsights_staged (stdout : List Char) :
    recoverInsights stdout =
      match unwrapStage (pyStrip stdout) with
      | none => RecResult.attrError
      | some raw1 =>
        match loads (fenceStage raw1) with
        | some v => RecResult.ok v
        | none => RecResult.parseError (errIns ++ fenceStage raw1) := rfl

/-! ## Claim C3: envelope unwrap round-trip -/

/-- C3: for every representable JSON object X, when the external process's
stdout is the serialisation of the envelope {"result": json(X)} — the
"result" field holding the JSON text of X, as the CLI emits it — the recovery
pipeline of run_check returns exactly X. -/
theorem C3_envelope_unwrap_roundtrip (X : Json) (hwf : wfJ X = true)
    (hobj : isObjJ X = true) :
    recoverRunCheck (dumpsVal (Json.obj [(rsKey, Json.str (dumpsVal X))])) =
      RecResult.ok X := by
  have hwfE : wfJ (Json.obj [(rsKey, Json.str (dumpsVal X))]) = true := by
    simp [wfJ, wfF, keysUniq]
  simp [recoverRunCheck, loads_dumps _ hwfE, loads_dumps X hwf, objGet,
    pyStrip_dumpsVal, fenceSearch_none (dumpsVal_no_newline X)]

/-- Witness for C3 at the concrete object {"a": 1}. -/
theorem C3_envelope_unwrap_roundtrip_witness :
    wfJ (Json.obj [("a".data, Json.num 1)]) = true ∧
    isObjJ (Json.obj [("a".data, Json.num 1)]) = true ∧
    recoverRunCheck
        (dumpsVal (Json.obj [(rsKey, Json.str (dumpsVal (Json.obj [("a".data, Json.num 1)])))])) =
      RecResult.ok (Json.obj [("a".data, Json.num 1)]) :=
  ⟨by decide, by decide, C3_envelope_unwrap_roundtrip _ (by decide) (by decide)⟩

/-! ## Claim C10: the two recovery pipelines agree -/

/-- C10: the duplicated recovery pipelines of run_check and extract_insights
are extensionally equal — for every raw stdout string, the structured value
recovered (before the insights-specific validation step) is identical. -/
theorem C10_pipelines_extensionally_equal (stdout : List Char) :
    recValue (recoverRunCheck stdout) = recValue (recoverInsights stdout) := by
  rw [recoverRunCheck_staged, recoverInsights_staged]
  cases unwrapStage (pyStrip stdout) with
  | none => rfl
  | some raw1 => cases hl : loads (fenceStage raw1) <;> simp [recValue, hl]

/-! ## Claim C8: tool-not-found is not a distinguished condition -/

/-- The names defined at module top level by src/ai_lint/checker.py. -/
def checkerModuleNames : List (List Char) :=
  ["json".data, "re".data, "shutil".data, "subprocess".data, "sys".data,
   "SYSTEM_PROMPT".data, "check_claude_installed".data, "run_check".data,
   "INSIGHT_SYSTEM_PROMPT".data, "extract_insights".data,
   "_validate_insights".data, "format_insights".data,
   "_group_by_category".data, "format_verdicts".data,
   "format_report_markdown".data]

/-- The names src/ai_lint/cli.py imports from ai_lint.checker (lines 10-19). -/
def cliCheckerImports : List (List Char) :=
  ["ClaudeNotFoundError".data, "check_claude_installed".data,
   "count_verdicts".data, "extract_insights".data, "format_insights".data,
   "format_report_markdown".data, "format_verdicts".data, "run_check".data]

/-- C8: when the claude executable is not locatable, run_check and
extract_insights do fail without invoking the subprocess, but the failure is a
bare `sys.exit(1)` rather than a distinguished tool-not-found exception; and
the distinguished `ClaudeNotFoundError` that cli.py attempts to import from
the checker module is not among the names the checker module defines, so the
caller cannot catch it (the import itself fails). -/
theorem C8_tool_not_found_not_distinguished :
    (∀ proc : ProcOutcome,
      run_check false proc = (RunOutcome.exited 1, false) ∧
      extract_insights false proc = (RunOutcome.exited 1, false)) ∧
    "ClaudeNotFoundError".data ∈ cliCheckerImports ∧
    "ClaudeNotFoundError".data ∉ checkerModuleNames :=
  ⟨fun _ => ⟨rfl, rfl⟩, by decide, by decide⟩

/-! ## Claim C9: category grouping is stable -/

/-- One step of the grouping fold of _group_by_category. -/
def gstep (gs : List (List Char × List Verdict)) (v : Verdict) :
    List (List Char × List Verdict) :=
  let c := catOf v
  if gs.any (fun g => g.1 == c) then
    gs.map (fun g => if g.1 = c then (g.1, g.2 ++ [v]) else g)
  else gs ++ [(c, [v])]

/-- The declarative grouping of a processed prefix. -/
def groupPartial (done : List Verdict) : List (List Char × List Verdict) :=
  (dedupFS (done.map catOf)).map (fun c => (c, done.filter (fun v => catOf v == c)))

theorem mem_dedupFS {x : List Char} {l : List (List Char)} :
    x ∈ dedupFS l ↔ x ∈ l := by
  have H : ∀ (l acc : List (List Char)),
      x ∈ l.foldl (fun acc c => if c ∈ acc then acc else acc ++ [c]) acc ↔
        x ∈ acc ∨ x ∈ l := by
    intro l
    induction l with
    | nil => intro acc; simp
    | cons c t ih =>
      intro acc
      simp only [List.foldl_cons]
      rw [ih]
      by_cases hc : c ∈ acc
      · rw [if_pos hc]
        simp only [List.mem_cons]
        constructor
        · rintro (h | h)
          · exact Or.inl h
          · exact Or.inr (Or.inr h)
        · rintro (h | rfl | h)
          · exact Or.inl h
          · exact Or.inl hc
          · exact Or.inr h
      · rw [if_neg hc]
        simp only [List.mem_append, List.mem_cons, List.mem_singleton]
        tauto
  rw [dedupFS, H]
  simp

theorem dedupFS_snoc (l : List (List Char)) (c : List Char) :
    dedupFS (l ++ [c]) = if c ∈ dedupFS l then dedupFS l else dedupFS l ++ [c] := by
  simp [dedupFS, List.foldl_append]

theorem gstep_snoc (done : List Verdict) (v : Verdict) :
    gstep (groupPartial done) v = groupPartial (done ++ [v]) := by
  by_cases hmem : catOf v ∈ dedupFS (done.map catOf)
  · have hany : (groupPartial done).any (fun g => g.1 == catOf v) = true := by
      simp only [groupPartial, List.any_eq_true]
      exact ⟨(catOf v, done.filter (fun v' => catOf v' == catOf v)),
        List.mem_map_of_mem _ hmem, by simp⟩
    simp only [gstep, hany, if_true]
    simp only [groupPartial, List.map_map]
    rw [show (done ++ [v]).map catOf = done.map catOf ++ [catOf v] from by simp]
    rw [dedupFS_snoc, if_pos hmem]
    apply List.map_congr_left
    intro c' hc'
    simp only [Function.comp]
    by_cases h : c' = catOf v
    · subst h
      simp [List.filter_append]
    · simp only [if_neg h]
      have : (catOf v == c') = false := by
        rw [beq_eq_false_iff_ne]
        exact fun hh => h hh.symm
      simp [List.filter_append, this]
  · have hany : (groupPartial done).any (fun g => g.1 == catOf v) = false := by
      simp only [groupPartial, List.any_eq_false]
      intro p hp
      simp only [List.mem_map] at hp
      obtain ⟨c', hc', rfl⟩ := hp
      intro h
      simp at h
      exact hmem (h ▸ hc')
    simp only [gstep, hany, Bool.false_eq_true, if_false]
    simp only [groupPartial]
    rw [show (done ++ [v]).map catOf = done.map catOf ++ [catOf v] from by simp]
    rw [dedupFS_snoc, if_neg hmem, List.map_append]
    congr 1
    · apply List.map_congr_left
      intro c' hc'
      have hne : (catOf v == c') = false := by
        rw [beq_eq_false_iff_ne]
        exact fun h => hmem (h ▸ hc')
      simp [List.filter_append, hne]
    · have hnil : done.filter (fun v' => catOf v' == catOf v) = [] := by
        rw [List.filter_eq_nil_iff]
        intro a ha
        simp only [beq_iff_eq]
        intro h
        exact hmem (mem_dedupFS.mpr (h ▸ List.mem_map_of_mem catOf ha))
      simp [List.filter_append, hnil]

theorem group_invariant :
    ∀ (rest done : List Verdict),
      rest.foldl gstep (groupPartial done) = groupPartial (done ++ rest) := by
  intro rest
  induction rest with
  | nil => intro done; simp
  | cons v t ih =>
    intro done
    simp only [List.foldl_cons]
    rw [gstep_snoc, ih (done ++ [v])]
    simp

/-- The grouping used by the formatters equals the declarative stable
grouping: categories in first-seen order, each with its verdicts in original
sequence order. -/
theorem group_eq_spec (vs : List Verdict) :
    _group_by_category vs = groupSpec vs :=
  group_invariant vs []

/-- C9: the grouping used by the formatters equals the declarative stable
grouping — categories in first-seen order, each with its verdicts in original
sequence order — so it is deterministic on every input. -/
theorem C9_grouping_stable (vs : List Verdict) :
    _group_by_category vs = groupSpec vs :=
  group_eq_spec vs

/-! ## Claim C4: insight validation totality -/

/-- C4 counterexample: an object whose what_went_well field is a number makes
the for-loop of _validate_insights iterate a non-iterable, raising TypeError
(modelled as none) — the validator is not total. -/
theorem C4_validator_raises_counterexample :
    _validate_insights (Json.obj [(wKey, Json.num 5)]) = none := by decide

/-- C4 (amended): _validate_insights returns the all-empty report on every
non-dict input, and returns a report carrying exactly the three keys whenever
each of the three fields, where present, is iterable; a present non-iterable
field raises TypeError instead. -/
theorem C4_validator_totality_amended :
    (∀ raw : Json, isObjJ raw = false → _validate_insights raw = some emptyReport) ∧
    (∀ fs : List (List Char × Json),
      (∀ k ∈ [wKey, iKey, nKey], iterItems ((objGet fs k).getD (Json.arr [])) ≠ none) →
      ∃ l1 l2 l3, _validate_insights (Json.obj fs) =
        some (Json.obj [(wKey, Json.arr l1), (iKey, Json.arr l2), (nKey, Json.arr l3)])) := by
  constructor
  · intro raw h
    cases raw <;> simp_all [_validate_insights, isObjJ, emptyReport]
  · intro fs h
    have h1 := h wKey (by simp)
    have h2 := h iKey (by simp)
    have h3 := h nKey (by simp)
    cases hi1 : iterItems ((objGet fs wKey).getD (Json.arr [])) with
    | none => exact absurd hi1 h1
    | some l1 =>
      cases hi2 : iterItems ((objGet fs iKey).getD (Json.arr [])) with
      | none => exact absurd hi2 h2
      | some l2 =>
        cases hi3 : iterItems ((objGet fs nKey).getD (Json.arr [])) with
        | none => exact absurd hi3 h3
        | some l3 =>
          exact ⟨l1.filter (keepItem pKey eKey), l2.filter (keepItem pKey eKey),
            l3.filter (keepItem oKey eKey), by simp [_validate_insights, hi1, hi2, hi3]⟩

/-- Witness for C4 at a non-dict input and at the empty dict. -/
theorem C4_validator_totality_amended_witness :
    isObjJ (Json.num 7) = false ∧
    _validate_insights (Json.num 7) = some emptyReport ∧
    ∃ l1 l2 l3, _validate_insights (Json.obj []) =
      some (Json.obj [(wKey, Json.arr l1), (iKey, Json.arr l2), (nKey, Json.arr l3)]) :=
  ⟨by decide, C4_validator_totality_amended.1 (Json.num 7) (by decide),
    C4_validator_totality_amended.2 []
      (by intro k hk; simp [objGet, iterItems])⟩

/-! ## Claim C5: which steps of the recovery chain can fail -/

/-- C5 counterexample: an envelope whose result field is a number raises
AttributeError inside the envelope-unwrap step (`.strip()` on a non-string;
only JSONDecodeError is caught), so the earlier steps are not failure-free. -/
theorem C5_unwrap_raises_counterexample :
    recoverRunCheck "\x7b\"result\": 42\x7d".data = RecResult.attrError := by decide

theorem unwrapStage_none_iff (raw0 : List Char) :
    unwrapStage raw0 = none ↔
      ∃ fs x, loads raw0 = some (Json.obj fs) ∧ objGet fs rsKey = some x ∧
        isStrJ x = false := by
  unfold unwrapStage
  cases hl : loads raw0 with
  | none =>
    refine iff_of_false (by simp) ?_
    rintro ⟨fs, x, hfs, -, -⟩
    cases hfs
  | some v =>
    cases v with
    | null =>
      refine iff_of_false (by simp) ?_
      rintro ⟨fs, x, hfs, -, -⟩
      simp at hfs
    | bool b =>
      refine iff_of_false (by simp) ?_
      rintro ⟨fs, x, hfs, -, -⟩
      simp at hfs
    | num n =>
      refine iff_of_false (by simp) ?_
      rintro ⟨fs, x, hfs, -, -⟩
      simp at hfs
    | str s =>
      refine iff_of_false (by simp) ?_
      rintro ⟨fs, x, hfs, -, -⟩
      simp at hfs
    | arr xs =>
      refine iff_of_false (by simp) ?_
      rintro ⟨fs, x, hfs, -, -⟩
      simp at hfs
    | obj fs =>
      show (match objGet fs rsKey with
        | some (Json.str s) => some (pyStrip s)
        | some _ => none
        | none => some raw0) = none ↔ _
      cases hg : objGet fs rsKey with
      | none =>
        refine iff_of_false (by simp) ?_
        rintro ⟨fs', x, hfs, hg', -⟩
        simp only [Option.some.injEq, Json.obj.injEq] at hfs
        subst hfs
        rw [hg] at hg'
        cases hg'
      | some x =>
        cases x with
        | str s =>
          refine iff_of_false (by simp) ?_
          rintro ⟨fs', x', hfs, hg', hstr⟩
          simp only [Option.some.injEq, Json.obj.injEq] at hfs
          subst hfs
          rw [hg] at hg'
          simp only [Option.some.injEq] at hg'
          subst hg'
          simp [isStrJ] at hstr
        | null => exact iff_of_true rfl ⟨fs, Json.null, rfl, hg, rfl⟩
        | bool b => exact iff_of_true rfl ⟨fs, Json.bool b, rfl, hg, rfl⟩
        | num n => exact iff_of_true rfl ⟨fs, Json.num n, rfl, hg, rfl⟩
        | arr xs => exact iff_of_true rfl ⟨fs, Json.arr xs, rfl, hg, rfl⟩
        | obj fs2 => exact iff_of_true rfl ⟨fs, Json.obj fs2, rfl, hg, rfl⟩

/-- C5 (amended): the recovery chain has exactly one early failure — the
uncaught AttributeError of the envelope unwrap, which occurs precisely when
the stripped stdout decodes to an object whose result field is present and
not a string; fence extraction never fails, and in every other situation the
only failure is the terminal step-5 parse error. -/
theorem C5_early_failure_characterised (stdout : List Char) :
    recoverRunCheck stdout = RecResult.attrError ↔
      ∃ fs x, loads (pyStrip stdout) = some (Json.obj fs) ∧
        objGet fs rsKey = some x ∧ isStrJ x = false := by
  rw [recoverRunCheck_staged, ← unwrapStage_none_iff]
  cases hu : unwrapStage (pyStrip stdout) with
  | none => simp
  | some raw1 =>
    show (match loads (fenceStage raw1) with
      | some v => RecResult.ok v
      | none => RecResult.parseError (errRC ++ fenceStage raw1)) = RecResult.attrError ↔
        some raw1 = none
    cases loads (fenceStage raw1) <;> simp

/-- Witness for C5 at an input that decodes to a plain array (no early
failure, both sides false). -/
theorem C5_early_failure_characterised_witness :
    ¬ recoverRunCheck "[1, 2]".data = RecResult.attrError :=
  fun h => by
    obtain ⟨fs, x, hl, _, _⟩ := (C5_early_failure_characterised "[1, 2]".data).mp h
    rw [show loads (pyStrip "[1, 2]".data) = some (Json.arr [Json.num 1, Json.num 2])
      from by decide] at hl
    simp at hl

/-! ## Claim C6: what the terminal error message contains -/

theorem startsWithL_refl_append (p b : List Char) : startsWithL (p ++ b) p = true :=
  startsWithL_iff.mpr ⟨b, rfl⟩

theorem containsSeg_startsWith {s p : List Char} (h : startsWithL s p = true) :
    containsSeg s p = true := by
  cases s with
  | nil => exact h
  | cons c t => simp [containsSeg, h]

theorem containsSeg_complete {s p : List Char} (h : SegIn p s) :
    containsSeg s p = true := by
  obtain ⟨a, b, rfl⟩ := h
  induction a with
  | nil => exact containsSeg_startsWith (startsWithL_refl_append p b)
  | cons x a' ih =>
    show containsSeg (x :: (a' ++ p ++ b)) p = true
    simp only [containsSeg, Bool.or_eq_true]
    exact Or.inr ih

/-- C6 counterexample: for stdout {"result": "nope"} the terminal error
message contains only the post-unwrap working text "nope"; the raw stdout as
the process said it does not occur in the message. -/
theorem C6_raw_not_verbatim_counterexample :
    recoverRunCheck "\x7b\"result\": \"nope\"\x7d".data =
      RecResult.parseError (errRC ++ "nope".data) ∧
    containsSeg (errRC ++ "nope".data) "\x7b\"result\": \"nope\"\x7d".data = false :=
  ⟨by decide, by decide⟩

/-- C6 (amended): when recovery fails terminally, the RuntimeError message
contains, verbatim, the working text after envelope unwrap and fence
extraction — not necessarily the raw stdout itself. -/
theorem C6_error_contains_working_text_amended (stdout m : List Char)
    (h : recoverRunCheck stdout = RecResult.parseError m) :
    ∃ raw1, unwrapStage (pyStrip stdout) = some raw1 ∧
      m = errRC ++ fenceStage raw1 ∧ SegIn (fenceStage raw1) m := by
  rw [recoverRunCheck_staged] at h
  cases hu : unwrapStage (pyStrip stdout) with
  | none => rw [hu] at h; cases h
  | some raw1 =>
    rw [hu] at h
    have h2 : (match loads (fenceStage raw1) with
        | some v => RecResult.ok v
        | none => RecResult.parseError (errRC ++ fenceStage raw1)) =
        RecResult.parseError m := h
    cases hl : loads (fenceStage raw1) with
    | some v => rw [hl] at h2; cases h2
    | none =>
      rw [hl] at h2
      refine ⟨raw1, rfl, ?_, ?_⟩
      · cases h2; rfl
      · cases h2
        exact segIn_append_left errRC (fenceStage raw1)

/-- Witness for C6 at the undecodable stdout "nonsense". -/
theorem C6_error_contains_working_text_amended_witness :
    ∃ raw1, unwrapStage (pyStrip "nonsense".data) = some raw1 ∧
      errRC ++ "nonsense".data = errRC ++ fenceStage raw1 ∧
      SegIn (fenceStage raw1) (errRC ++ "nonsense".data) :=
  C6_error_contains_working_text_amended "nonsense".data (errRC ++ "nonsense".data)
    (by decide)

/-! ## Claim C1: the brace-scan rescue of the spec -/

/-- C1 counterexample: for stdout x{"a": 1} the working text after unwrap
and fence extraction fails direct decode, its first-brace-to-last-brace span
decodes to {"a": 1}, yet the recovery raises the terminal failure instead of
returning that value — no brace-scan rescue exists in the code. -/
theorem C1_brace_rescue_missing_counterexample :
    (braceSpanSpec (fenceStage (pyStrip "x\x7b\"a\": 1\x7d".data))).bind loads =
      some (Json.obj [("a".data, Json.num 1)]) ∧
    recoverRunCheck "x\x7b\"a\": 1\x7d".data =
      RecResult.parseError (errRC ++ "x\x7b\"a\": 1\x7d".data) :=
  ⟨by decide, by decide⟩

/-- C1 (amended): after envelope unwrap and fence extraction, a working text
that fails direct decode always raises the terminal failure, even when its
greedy outermost brace span decodes successfully. -/
theorem C1_no_brace_rescue_amended (stdout raw1 : List Char) (v : Json)
    (hu : unwrapStage (pyStrip stdout) = some raw1)
    (hfail : loads (fenceStage raw1) = none)
    (hbrace : (braceSpanSpec (fenceStage raw1)).bind loads = some v) :
    recoverRunCheck stdout = RecResult.parseError (errRC ++ fenceStage raw1) := by
  rw [recoverRunCheck_staged, hu]
  show (match loads (fenceStage raw1) with
    | some v => RecResult.ok v
    | none => RecResult.parseError (errRC ++ fenceStage raw1)) = _
  rw [hfail]

/-- Witness for C1 at the stdout x{"a": 1}. -/
theorem C1_no_brace_rescue_amended_witness :
    recoverRunCheck "x\x7b\"a\": 1\x7d".data =
      RecResult.parseError (errRC ++ fenceStage "x\x7b\"a\": 1\x7d".data) :=
  C1_no_brace_rescue_amended "x\x7b\"a\": 1\x7d".data "x\x7b\"a\": 1\x7d".data
    (Json.obj [("a".data, Json.num 1)]) (by decide) (by decide) (by decide)

/-! ## Claim C7: what format_verdicts renders in the 3/1/1 scenario -/

/-- The Results tally line of format_verdicts. -/
def resultsLine (result : CheckResultM) : List Char :=
  "Results: ".data
    ++ natReprL (result.verdicts.filter (fun v => v.verdict == "PASS".data)).length
    ++ " passed, ".data
    ++ natReprL (result.verdicts.filter (fun v => v.verdict == "FAIL".data)).length
    ++ " failed, ".data
    ++ natReprL (result.verdicts.filter (fun v => v.verdict == "SKIP".data)).length
    ++ " skipped".data

/-- All lines of format_verdicts before the optional summary line. -/
def outLines (result : CheckResultM) : List (List Char) :=
  ((_group_by_category result.verdicts).map groupLines).flatten
    ++ [resultsLine result] ++ [[]]

theorem format_verdicts_eq (result : CheckResultM) :
    format_verdicts result =
      joinNL (if result.summary = [] then outLines result
              else outLines result ++ ["Summary: ".data ++ result.summary]) := rfl

theorem mem_outLines_segIn (result : CheckResultM) {l : List Char}
    (h : l ∈ outLines result) : SegIn l (format_verdicts result) := by
  rw [format_verdicts_eq]
  by_cases hsum : result.summary = []
  · rw [if_pos hsum]
    exact segIn_joinNL h
  · rw [if_neg hsum]
    exact segIn_joinNL (List.mem_append_left _ h)

/-- A 3 PASS / 1 FAIL / 1 SKIP verdict list with a distinctive PASS
reasoning text. -/
def sampleVerdicts : List Verdict :=
  [⟨some "Security".data, "r1".data, "PASS".data, "zzpassreasonzz".data⟩,
   ⟨some "Security".data, "r2".data, "FAIL".data, "failreason".data⟩,
   ⟨some "Dev".data, "r3".data, "PASS".data, "p2".data⟩,
   ⟨some "Dev".data, "r4".data, "SKIP".data, "skipreason".data⟩,
   ⟨none, "r5".data, "PASS".data, "p3".data⟩]

/-- C7 counterexample: in a 3/1/1 scenario a PASS verdict's reasoning text is
not omitted — format_verdicts prints the reasoning of every verdict. -/
theorem C7_pass_reasoning_printed_counterexample :
    (sampleVerdicts.filter (fun v => v.verdict == "PASS".data)).length = 3 ∧
    (sampleVerdicts.filter (fun v => v.verdict == "FAIL".data)).length = 1 ∧
    (sampleVerdicts.filter (fun v => v.verdict == "SKIP".data)).length = 1 ∧
    ∃ v ∈ sampleVerdicts, v.verdict = "PASS".data ∧
      SegIn v.reasoning (format_verdicts ⟨sampleVerdicts, []⟩) :=
  ⟨by decide, by decide, by decide,
    ⟨⟨some "Security".data, "r1".data, "PASS".data, "zzpassreasonzz".data⟩,
      List.mem_cons_self _ _, rfl, containsSeg_sound (by decide)⟩⟩

/-- C7 (amended): for every verdict dict with 3 PASS, 1 FAIL and 1 SKIP
verdicts, the rendered output contains the tally line
"Results: 3 passed, 1 failed, 1 skipped" and the reasoning text of every
verdict — the FAIL verdict's included, and the PASS verdicts' as well (no
compact rendering omits them). -/
theorem C7_tally_and_reasonings_rendered_amended (result : CheckResultM)
    (h3 : (result.verdicts.filter (fun v => v.verdict == "PASS".data)).length = 3)
    (h1 : (result.verdicts.filter (fun v => v.verdict == "FAIL".data)).length = 1)
    (hs : (result.verdicts.filter (fun v => v.verdict == "SKIP".data)).length = 1) :
    SegIn "Results: 3 passed, 1 failed, 1 skipped".data (format_verdicts result) ∧
    ∀ v ∈ result.verdicts, SegIn v.reasoning (format_verdicts result) := by
  constructor
  · have hres : resultsLine result = "Results: 3 passed, 1 failed, 1 skipped".data := by
      simp only [resultsLine, h3, h1, hs]
      decide
    have hmem : resultsLine result ∈ outLines result := by
      simp [outLines]
    exact hres ▸ mem_outLines_segIn result hmem
  · intro v hv
    have hline : ("      ".data ++ v.reasoning) ∈ verdictLines v := by
      simp [verdictLines]
    have hvfil : v ∈ result.verdicts.filter (fun w => catOf w == catOf v) :=
      List.mem_filter.mpr ⟨hv, by simp⟩
    have hcat : catOf v ∈ dedupFS (result.verdicts.map catOf) :=
      mem_dedupFS.mpr (List.mem_map_of_mem catOf hv)
    have hgrp : (catOf v, result.verdicts.filter (fun w => catOf w == catOf v)) ∈
        groupSpec result.verdicts := by
      rw [groupSpec]
      exact List.mem_map_of_mem _ hcat
    have hlg : ("      ".data ++ v.reasoning) ∈
        groupLines (catOf v, result.verdicts.filter (fun w => catOf w == catOf v)) := by
      simp only [groupLines]
      refine List.mem_cons_of_mem _ (List.mem_append_left _ ?_)
      rw [List.mem_flatten]
      exact ⟨verdictLines v, List.mem_map_of_mem _ hvfil, hline⟩
    have hout : ("      ".data ++ v.reasoning) ∈ outLines result := by
      simp only [outLines]
      refine List.mem_append_left _ (List.mem_append_left _ ?_)
      rw [group_eq_spec, List.mem_flatten]
      exact ⟨groupLines (catOf v, result.verdicts.filter (fun w => catOf w == catOf v)),
        List.mem_map_of_mem _ hgrp, hlg⟩
    exact segIn_trans ⟨"      ".data, [], by simp⟩ (mem_outLines_segIn result hout)

/-- Witness for C7 at the sample 3/1/1 verdict list. -/
theorem C7_tally_and_reasonings_rendered_amended_witness :
    SegIn "Results: 3 passed, 1 failed, 1 skipped".data
        (format_verdicts ⟨sampleVerdicts, []⟩) ∧
    ∀ v ∈ sampleVerdicts, SegIn v.reasoning (format_verdicts ⟨sampleVerdicts, []⟩) :=
  C7_tally_and_reasonings_rendered_amended ⟨sampleVerdicts, []⟩
    (by decide) (by decide) (by decide)

/-! ## Claim C2: the fence-extraction contract -/

/-- No backtick occurs in the text. -/
def btkFree : List Char → Bool
  | [] => true
  | c :: t => !(c == btk) && btkFree t

/-- The text is nonempty and starts with a non-whitespace character. -/
def headOK : List Char → Bool
  | [] => false
  | c :: _ => !isPySpace c

/-- Every newline inside the text is immediately followed by a
non-whitespace character of the text. -/
def nlOK : List Char → Bool
  | [] => true
  | c :: t =>
    if c = '\n' then
      match t.head? with
      | none => false
      | some d => !isPySpace d && nlOK t
    else nlOK t

/-- C2 counterexample: an uppercase-tagged fence and a same-line fence are
both rejected by the code's regex — the language tag is matched
case-sensitively and the newline after the opening marker is mandatory,
contradicting the spec's IGNORECASE and optional-newline contract. -/
theorem C2_fence_contract_counterexample :
    fenceSearch "\x60\x60\x60JSON\n\x7b\"a\": 1\x7d\n\x60\x60\x60".data = none ∧
    fenceSearch "\x60\x60\x60json \x7b\"a\": 1\x7d \x60\x60\x60".data = none :=
  ⟨by decide, by decide⟩

theorem startsWithL_nil (s : List Char) : startsWithL s [] = true := by
  cases s <;> rfl

theorem matchLazy_fence (post : List Char) :
    ∀ body : List Char, btkFree body = true → nlOK body = true →
      matchLazy (body ++ ('\n' :: (ccc ++ post))) = some body := by
  intro body
  induction body with
  | nil =>
    intro _ _
    have hcf : closesFence (ccc ++ post) = true := by
      have hws : wsRun (ccc ++ post) = 0 := by
        show wsRun (btk :: ([btk, btk] ++ post)) = 0
        simp [wsRun, isPySpace, btk]
      simp only [closesFence, hws]
      simp [startsWithL_refl_append]
    show matchLazy ('\n' :: (ccc ++ post)) = some []
    rw [matchLazy.eq_2]
    rw [if_pos (by simp [hcf])]
  | cons c t ih =>
    intro hb hnl
    simp only [btkFree, Bool.and_eq_true] at hb
    obtain ⟨hb1, hb2⟩ := hb
    show matchLazy (c :: (t ++ ('\n' :: (ccc ++ post)))) = some (c :: t)
    rw [matchLazy.eq_2]
    by_cases hc : c = '\n'
    · subst hc
      cases t with
      | nil => exact absurd hnl (by decide)
      | cons d t' =>
        have hdef : nlOK ('\n' :: d :: t') = (!isPySpace d && nlOK (d :: t')) := rfl
        rw [hdef, Bool.and_eq_true] at hnl
        obtain ⟨hd, hnlt⟩ := hnl
        have hd' : isPySpace d = false := by
          cases hx : isPySpace d
          · rfl
          · rw [hx] at hd; cases hd
        have hdb : (d == btk) = false := by
          simp only [btkFree, Bool.and_eq_true] at hb2
          cases hx : d == btk
          · rfl
          · rw [hx] at hb2; rcases hb2 with ⟨h1, -⟩; cases h1
        have hcf : closesFence (d :: (t' ++ ('\n' :: (ccc ++ post)))) = false := by
          have hws : wsRun (d :: (t' ++ ('\n' :: (ccc ++ post)))) = 0 := by
            simp [wsRun, hd']
          simp only [closesFence, hws]
          simp [startsWithL, ccc, hdb]
        rw [if_neg (by simp [hcf])]
        rw [ih hb2 hnlt]
        rfl
    · have hcn : (c == '\n') = false := by
        cases hx : c == '\n'
        · rfl
        · exact absurd (by simpa using hx) hc
      have hnlt : nlOK t = true := by simpa [nlOK, hc] using hnl
      rw [if_neg (by simp [hcn])]
      rw [ih hb2 hnlt]
      rfl

theorem matchAfterTag_fence (body post : List Char)
    (hb : btkFree body = true) (hh : headOK body = true) (hnl : nlOK body = true) :
    matchAfterTag ('\n' :: (body ++ ('\n' :: (ccc ++ post)))) = some body := by
  cases body with
  | nil => cases hh
  | cons b0 bt =>
    have hb0 : isPySpace b0 = false := by
      simp only [headOK] at hh
      cases hx : isPySpace b0
      · rfl
      · rw [hx] at hh; cases hh
    have hb0n : b0 ≠ '\n' := by
      intro h
      rw [h] at hb0
      exact absurd hb0 (by decide)
    have hws : wsRun ('\n' :: ((b0 :: bt) ++ ('\n' :: (ccc ++ post)))) = 1 := by
      show wsRun ('\n' :: (b0 :: (bt ++ ('\n' :: (ccc ++ post))))) = 1
      simp only [wsRun]
      rw [if_pos (show isPySpace '\n' = true from by decide),
          if_neg (show ¬(isPySpace b0 = true) from by simp [hb0])]
    rw [matchAfterTag, hws]
    rw [show (List.range (1 + 1)).reverse = [1, 0] from by decide]
    simp only [tryNewlineAt]
    rw [show (('\n' :: ((b0 :: bt) ++ ('\n' :: (ccc ++ post)))).drop 1).head? = some b0
      from rfl]
    rw [if_neg (by simp [hb0n])]
    rw [show (('\n' :: ((b0 :: bt) ++ ('\n' :: (ccc ++ post)))).drop 0).head? = some '\n'
      from rfl]
    rw [if_pos rfl]
    rw [show (('\n' :: ((b0 :: bt) ++ ('\n' :: (ccc ++ post)))).drop 0).tail
      = (b0 :: bt) ++ ('\n' :: (ccc ++ post)) from rfl]
    rw [matchLazy_fence post (b0 :: bt) hb hnl]

theorem matchAt_fence_tagged (body post : List Char)
    (hb : btkFree body = true) (hh : headOK body = true) (hnl : nlOK body = true) :
    matchAt (ccc ++ ('j' :: 's' :: 'o' :: 'n' :: '\n' :: (body ++ ('\n' :: (ccc ++ post))))) =
      some body := by
  simp only [matchAt]
  rw [if_pos (startsWithL_refl_append ccc _)]
  rw [show (ccc ++ ('j' :: 's' :: 'o' :: 'n' :: '\n' :: (body ++ ('\n' :: (ccc ++ post))))).drop 3
      = 'j' :: 's' :: 'o' :: 'n' :: '\n' :: (body ++ ('\n' :: (ccc ++ post))) from rfl]
  have hj : startsWithL ('j' :: 's' :: 'o' :: 'n' :: '\n' :: (body ++ ('\n' :: (ccc ++ post))))
      ['j', 's', 'o', 'n'] = true :=
    startsWithL_iff.mpr ⟨'\n' :: (body ++ ('\n' :: (ccc ++ post))), rfl⟩
  rw [if_pos hj]
  rw [show ('j' :: 's' :: 'o' :: 'n' :: '\n' :: (body ++ ('\n' :: (ccc ++ post)))).drop 4
      = '\n' :: (body ++ ('\n' :: (ccc ++ post))) from rfl]
  rw [matchAfterTag_fence body post hb hh hnl]

theorem matchAt_fence_untagged (body post : List Char)
    (hb : btkFree body = true) (hh : headOK body = true) (hnl : nlOK body = true) :
    matchAt (ccc ++ ('\n' :: (body ++ ('\n' :: (ccc ++ post))))) = some body := by
  simp only [matchAt]
  rw [if_pos (startsWithL_refl_append ccc _)]
  rw [show (ccc ++ ('\n' :: (body ++ ('\n' :: (ccc ++ post))))).drop 3
      = '\n' :: (body ++ ('\n' :: (ccc ++ post))) from rfl]
  rw [if_neg (show ¬(startsWithL ('\n' :: (body ++ ('\n' :: (ccc ++ post))))
      ['j', 's', 'o', 'n'] = true) from fun hcon => by
    obtain ⟨b, hb2⟩ := startsWithL_iff.mp hcon
    simp at hb2)]
  rw [matchAfterTag_fence body post hb hh hnl]

theorem matchAt_cons_nonbtk {c : Char} (h : (c == btk) = false) (t : List Char) :
    matchAt (c :: t) = none := by
  simp only [matchAt]
  rw [if_neg (show ¬(startsWithL (c :: t) ccc = true) from by
    simp [startsWithL, ccc, h])]

theorem fenceSearch_of_matchAt {s g : List Char} (h : matchAt s = some g) :
    fenceSearch s = some g := by
  cases s with
  | nil => rw [show matchAt [] = none from rfl] at h; cases h
  | cons c t =>
    simp only [fenceSearch]
    rw [h]

theorem fenceSearch_append_btkFree :
    ∀ pre : List Char, btkFree pre = true →
      ∀ X : List Char, fenceSearch (pre ++ X) = fenceSearch X := by
  intro pre
  induction pre with
  | nil => intro _ X; rfl
  | cons c p ih =>
    intro hpre X
    simp only [btkFree, Bool.and_eq_true] at hpre
    obtain ⟨h1, h2⟩ := hpre
    have hc : (c == btk) = false := by
      cases hx : c == btk
      · rfl
      · rw [hx] at h1; cases h1
    show fenceSearch (c :: (p ++ X)) = fenceSearch X
    simp only [fenceSearch]
    rw [matchAt_cons_nonbtk hc]
    exact ih h2 X

/-- C2 (amended): for every working text of the form prose, fence, prose —
backtick-free prose before the fence, a lowercase json tag or no tag, a
mandatory newline after the opening marker, a body starting with a
non-whitespace character whose embedded newlines are each followed by a
non-whitespace character, arbitrary text after the closing marker — the
fence is recognised and the working text is replaced by exactly the fence's
interior.  The newline after the opening marker is mandatory and the tag is
case-sensitive (see the counterexample), unlike the spec's contract. -/
theorem C2_fence_extraction_amended (pre body post : List Char)
    (hpre : btkFree pre = true) (hb : btkFree body = true)
    (hh : headOK body = true) (hnl : nlOK body = true) :
    fenceSearch (pre ++ (ccc ++ ('j' :: 's' :: 'o' :: 'n' :: '\n'
      :: (body ++ ('\n' :: (ccc ++ post)))))) = some body ∧
    fenceSearch (pre ++ (ccc ++ ('\n' :: (body ++ ('\n' :: (ccc ++ post)))))) = some body ∧
    fenceStage (pre ++ (ccc ++ ('j' :: 's' :: 'o' :: 'n' :: '\n'
      :: (body ++ ('\n' :: (ccc ++ post)))))) = body := by
  have h1 : fenceSearch (pre ++ (ccc ++ ('j' :: 's' :: 'o' :: 'n' :: '\n'
      :: (body ++ ('\n' :: (ccc ++ post)))))) = some body := by
    rw [fenceSearch_append_btkFree pre hpre]
    exact fenceSearch_of_matchAt (matchAt_fence_tagged body post hb hh hnl)
  have h2 : fenceSearch (pre ++ (ccc ++ ('\n' :: (body ++ ('\n' :: (ccc ++ post))))))
      = some body := by
    rw [fenceSearch_append_btkFree pre hpre]
    exact fenceSearch_of_matchAt (matchAt_fence_untagged body post hb hh hnl)
  exact ⟨h1, h2, by rw [fenceStage, h1]⟩

/-- Witness for C2: prose before and after a lowercase-tagged fence whose
body is a JSON object containing an embedded newline. -/
theorem C2_fence_extraction_amended_witness :
    fenceSearch ("Here: \n".data ++ (ccc ++ ('j' :: 's' :: 'o' :: 'n' :: '\n'
      :: ("\x7b\"a\":\n1\x7d".data ++ ('\n' :: (ccc ++ " trailing".data))))))
      = some "\x7b\"a\":\n1\x7d".data ∧
    fenceSearch ("Here: \n".data ++ (ccc ++ ('\n' :: ("\x7b\"a\":\n1\x7d".data
      ++ ('\n' :: (ccc ++ " trailing".data)))))) = some "\x7b\"a\":\n1\x7d".data ∧
    fenceStage ("Here: \n".data ++ (ccc ++ ('j' :: 's' :: 'o' :: 'n' :: '\n'
      :: ("\x7b\"a\":\n1\x7d".data ++ ('\n' :: (ccc ++ " trailing".data))))))
      = "\x7b\"a\":\n1\x7d".data :=
  C2_fence_extraction_amended "Here: \n".data "\x7b\"a\":\n1\x7d".data
    " trailing".data (by decide) (by decide) (by decide) (by decide)

end AiLint
